import Mathlib

/-!
Verification of a boolean-retrieval system (inverted/positional index builder,
text normalizer, index codec, boolean and proximity query evaluators).

The Python source (`src/main.py`) is shallowly embedded below.  Strings are
handled as `List Char` internally (the documents and queries at issue are
ASCII, so Python's unicode-aware `str.lower`/`isalpha` coincide with the
ASCII versions used here).  The stemmer and the stopword list are external
inputs of the program (the NLTK `PorterStemmer` and the file
`Stopword-List.txt`, neither of which is part of the repository source), so
every theorem is parameterized over a stemmer `stem : String → String` and a
stopword list `stop_words : List String`; faithful concrete models of both
are provided further down and used to instantiate witnesses.
-/

set_option maxHeartbeats 1000000

namespace BooleanIR

/-! ### Character classes (Python `\s`, `[a-zA-Z]`, `\d`, `str.lower`) -/

/-- Python whitespace (`str.split()` separators and regex `\s`), ASCII part. -/
def isWs (c : Char) : Bool :=
  c = ' ' || c = '\t' || c = '\n' || c = '\r' || c = '\x0b' || c = '\x0c'

/-- Regex `[a-zA-Z]`; also Python `str.isalpha` on ASCII text. -/
def isAsciiAlpha (c : Char) : Bool := ('a' ≤ c && c ≤ 'z') || ('A' ≤ c && c ≤ 'Z')

/-- Regex `\d` on ASCII text. -/
def isAsciiDigit (c : Char) : Bool := '0' ≤ c && c ≤ '9'

/-- Regex `[a-zA-Z0-9]` (the characters kept by `clean_token`). -/
def isAlnum (c : Char) : Bool := isAsciiAlpha c || isAsciiDigit c

/-- Python `str.lower` on ASCII text. -/
def lowerChar (c : Char) : Char :=
  if 'A' ≤ c && c ≤ 'Z' then Char.ofNat (c.toNat + 32) else c

def lowerStr (s : List Char) : List Char := s.map lowerChar

/-! ### The email / URL patterns of `preprocess` (src/main.py lines 34-35)

`email_regex = r'[a-zA-Z0-9_.+-]+@[a-zA-Z0-9-]+\.[a-zA-Z0-9-.]+'`
`url_regex = r'https?://[^\s]+'`

`re.match` looks for a match starting at position 0.  For these patterns the
backtracking search is deterministic: each `+`-run is over a character class
that excludes the character that must follow it (`@` is not in
`[a-zA-Z0-9_.+-]`, `.` is not in `[a-zA-Z0-9-]`), so the maximal
(`takeWhile`) run is the only candidate and `tryEmail`/`tryUrl` below return
exactly the greedy match (matched part, remainder), or `none` when `re.match`
fails. -/

/-- The class `[a-zA-Z0-9_.+-]` (local part of an email). -/
def class1 (c : Char) : Bool := isAlnum c || c = '_' || c = '.' || c = '+' || c = '-'

/-- The class `[a-zA-Z0-9-]` (first domain label). -/
def class2 (c : Char) : Bool := isAlnum c || c = '-'

/-- The class `[a-zA-Z0-9-.]` (rest of the domain). -/
def class3 (c : Char) : Bool := isAlnum c || c = '-' || c = '.'

/-- Anchored greedy match of `email_regex`: returns (matched, rest). -/
def tryEmail (l : List Char) : Option (List Char × List Char) :=
  let a := l.takeWhile class1
  let r1 := l.dropWhile class1
  if a = [] then none else
  match r1 with
  | '@' :: r2 =>
    let b := r2.takeWhile class2
    let r3 := r2.dropWhile class2
    if b = [] then none else
    match r3 with
    | '.' :: r4 =>
      let cpart := r4.takeWhile class3
      let r5 := r4.dropWhile class3
      if cpart = [] then none else some (a ++ '@' :: b ++ '.' :: cpart, r5)
    | _ => none
  | _ => none

def urlTail (pre : List Char) (r : List Char) : Option (List Char × List Char) :=
  let body := r.takeWhile (fun c => !isWs c)
  let rest := r.dropWhile (fun c => !isWs c)
  if body = [] then none else some (pre ++ body, rest)

/-- Anchored greedy match of `url_regex`: returns (matched, rest). -/
def tryUrl : List Char → Option (List Char × List Char)
  | 'h' :: 't' :: 't' :: 'p' :: 's' :: ':' :: '/' :: '/' :: r =>
      urlTail ['h', 't', 't', 'p', 's', ':', '/', '/'] r
  | 'h' :: 't' :: 't' :: 'p' :: ':' :: '/' :: '/' :: r =>
      urlTail ['h', 't', 't', 'p', ':', '/', '/'] r
  | _ => none

/-- `re.findall(r'(?:EMAIL|URL|\S+)', text)` (src/main.py line 46): scan the
text; at a whitespace character advance; otherwise emit the email match if
any, else the URL match if any, else the maximal `\S+` run.  The fuel is the
length of the text; every step consumes at least one character, so
`findTokens l.length l` is the full scan. -/
def findTokens : Nat → List Char → List (List Char)
  | 0, _ => []
  | _ + 1, [] => []
  | fuel + 1, c :: cs =>
    if isWs c then findTokens fuel cs
    else
      match tryEmail (c :: cs) with
      | some (tok, rest) => tok :: findTokens fuel rest
      | none =>
        match tryUrl (c :: cs) with
        | some (tok, rest) => tok :: findTokens fuel rest
        | none =>
          (c :: cs).takeWhile (fun c => !isWs c) ::
            findTokens fuel ((c :: cs).dropWhile (fun c => !isWs c))

/-- Python `str.split()` (split on whitespace runs, no empty fields), as used
by `build_indexes` (src/main.py line 95).  Fuel as in `findTokens`. -/
def splitWsAux : Nat → List Char → List (List Char)
  | 0, _ => []
  | _ + 1, [] => []
  | fuel + 1, c :: cs =>
    if isWs c then splitWsAux fuel cs
    else
      (c :: cs).takeWhile (fun c => !isWs c) ::
        splitWsAux fuel ((c :: cs).dropWhile (fun c => !isWs c))

def pySplit (s : String) : List String :=
  (splitWsAux s.data.length s.data).map (fun l => ⟨l⟩)

/-! ### The stemmer

`preprocess` calls `PorterStemmer().stem` from NLTK (src/main.py lines 31
and 60).  The stemmer is an external library, not repository code, so all
theorems below take the stemmer as a parameter `stem : String → String`.
The definitions in this section model the external NLTK `PorterStemmer`
(default `NLTK_EXTENSIONS` mode) so that concrete witnesses can instantiate
that parameter with the stemmer the program actually uses; the spec describes
it as "a suffix-stripping stemming transform (Porter-style: reduces
inflected/derived word forms to a common root via ordered suffix-rewrite
rules)".  Note `PorterStemmer.stem` lowercases its argument before applying
the rule steps. -/

def vowels : List Char := ['a', 'e', 'i', 'o', 'u']

/-- `PorterStemmer._is_consonant(word, i)`: not a vowel; `y` is a consonant
at position 0 and after a consonant. -/
def isCons (w : List Char) : Nat → Bool
  | 0 =>
    match w[0]? with
    | none => true
    | some c => if c ∈ vowels then false else true
  | i + 1 =>
    match w[i + 1]? with
    | none => true
    | some c => if c ∈ vowels then false else if c = 'y' then !isCons w i else true

/-- `PorterStemmer._measure`: the number of `vc` transitions in the
consonant/vowel sequence of the word. -/
def pMeasure (w : List Char) : Nat :=
  ((List.range (w.length - 1)).filter (fun i => !isCons w i && isCons w (i + 1))).length

def containsVowel (w : List Char) : Bool :=
  (List.range w.length).any (fun i => !isCons w i)

/-- `PorterStemmer._ends_double_consonant`. -/
def endsDouble (w : List Char) : Bool :=
  decide (2 ≤ w.length) && (w[w.length - 1]? == w[w.length - 2]?) && isCons w (w.length - 1)

/-- `PorterStemmer._ends_cvc` (with the NLTK extension for length-2 words). -/
def endsCVC (w : List Char) : Bool :=
  (decide (3 ≤ w.length) && isCons w (w.length - 3) && !isCons w (w.length - 2) &&
      isCons w (w.length - 1) &&
      !(w[w.length - 1]? == some 'w' || w[w.length - 1]? == some 'x' ||
        w[w.length - 1]? == some 'y')) ||
  (decide (w.length = 2) && !isCons w 0 && isCons w 1)

def endsWith (w suf : List Char) : Bool := suf.isSuffixOf w

/-- Drop the last `n` characters (`word[:-n]`). -/
def chop (w : List Char) (n : Nat) : List Char := w.take (w.length - n)

def step1a (w : List Char) : List Char :=
  if endsWith w "ies".data && decide (w.length = 4) then chop w 3 ++ "ie".data
  else if endsWith w "sses".data then chop w 4 ++ "ss".data
  else if endsWith w "ies".data then chop w 3 ++ "i".data
  else if endsWith w "ss".data then w
  else if endsWith w "s".data then chop w 1
  else w

/-- The rule list applied to the intermediate stem after a successful
`ed`/`ing` removal in step 1b.  A matching `*d` whose last letter is in
`l`/`s`/`z` returns the word unchanged (the rule list stops there). -/
def post1b (st : List Char) : List Char :=
  if endsWith st "at".data then st ++ "e".data
  else if endsWith st "bl".data then st ++ "e".data
  else if endsWith st "iz".data then st ++ "e".data
  else if endsDouble st then
    (if st[st.length - 1]? == some 'l' || st[st.length - 1]? == some 's' ||
        st[st.length - 1]? == some 'z' then st
     else chop st 1)
  else if pMeasure st = 1 ∧ endsCVC st then st ++ "e".data
  else st

def step1b (w : List Char) : List Char :=
  if endsWith w "ied".data then
    (if w.length = 4 then chop w 3 ++ "ie".data else chop w 3 ++ "i".data)
  else if endsWith w "eed".data then
    (if 0 < pMeasure (chop w 3) then chop w 3 ++ "ee".data else w)
  else if endsWith w "ed".data ∧ containsVowel (chop w 2) then post1b (chop w 2)
  else if endsWith w "ing".data ∧ containsVowel (chop w 3) then post1b (chop w 3)
  else w

def step1c (w : List Char) : List Char :=
  if endsWith w "y".data then
    (let st := chop w 1
     if 1 < st.length ∧ isCons st (st.length - 1) then st ++ "i".data else w)
  else w

/-- First rule of the list whose suffix matches (NLTK `_apply_rule_list`). -/
def findRule (w : List Char) : List (List Char × List Char) → Option (List Char × List Char)
  | [] => none
  | (s, r) :: rest => if endsWith w s then some (s, r) else findRule w rest

def rules2 : List (List Char × List Char) :=
  [("ational".data, "ate".data), ("tional".data, "tion".data), ("enci".data, "ence".data),
   ("anci".data, "ance".data), ("izer".data, "ize".data), ("bli".data, "ble".data),
   ("alli".data, "al".data), ("entli".data, "ent".data), ("eli".data, "e".data),
   ("ousli".data, "ous".data), ("ization".data, "ize".data), ("ation".data, "ate".data),
   ("ator".data, "ate".data), ("alism".data, "al".data), ("iveness".data, "ive".data),
   ("fulness".data, "ful".data), ("ousness".data, "ous".data), ("aliti".data, "al".data),
   ("iviti".data, "ive".data), ("biliti".data, "ble".data), ("fulli".data, "ful".data)]

/-- The `logi → log` rule (last in NLTK's step 2 list) keeps the `l` with the
stem: the measure condition is on `word[:-3]` and the replacement drops only
the final `i`. -/
def step2rules (w : List Char) : List Char :=
  match findRule w rules2 with
  | some (s, r) => if 0 < pMeasure (chop w s.length) then chop w s.length ++ r else w
  | none =>
    if endsWith w "logi".data then
      (if 0 < pMeasure (chop w 3) then chop w 4 ++ "log".data else w)
    else w

/-- NLTK applies the `alli → al` rewrite first and re-runs `_step2` on the
result; the rewritten word ends in `al`, never in `alli`, so that recursive
call is exactly one plain pass over the rule list. -/
def step2 (w : List Char) : List Char :=
  if endsWith w "alli".data ∧ 0 < pMeasure (chop w 4) then step2rules (chop w 4 ++ "al".data)
  else step2rules w

def rules3 : List (List Char × List Char) :=
  [("icate".data, "ic".data), ("ative".data, "".data), ("alize".data, "al".data),
   ("iciti".data, "ic".data), ("ical".data, "ic".data), ("ful".data, "".data),
   ("ness".data, "".data)]

def step3 (w : List Char) : List Char :=
  match findRule w rules3 with
  | some (s, r) => if 0 < pMeasure (chop w s.length) then chop w s.length ++ r else w
  | none => w

def rules4 : List (List Char) :=
  ["al".data, "ance".data, "ence".data, "er".data, "ic".data, "able".data, "ible".data,
   "ant".data, "ement".data, "ment".data, "ent".data, "ion".data, "ou".data, "ism".data,
   "ate".data, "iti".data, "ous".data, "ive".data, "ize".data]

def findRule4 (w : List Char) : List (List Char) → Option (List Char)
  | [] => none
  | s :: rest => if endsWith w s then some s else findRule4 w rest

/-- Step 4: all rules delete the suffix under `measure > 1`; the `ion` rule
additionally requires the stem to end in `s` or `t`. -/
def step4 (w : List Char) : List Char :=
  match findRule4 w rules4 with
  | some s =>
    let st := chop w s.length
    if s = "ion".data then
      (if 1 < pMeasure st ∧ (st.getLast? = some 's' ∨ st.getLast? = some 't') then st else w)
    else (if 1 < pMeasure st then st else w)
  | none => w

def step5a (w : List Char) : List Char :=
  if endsWith w "e".data then
    (let st := chop w 1
     if 1 < pMeasure st then st
     else if pMeasure st = 1 ∧ ¬endsCVC st then st
     else w)
  else w

def step5b (w : List Char) : List Char :=
  if endsWith w "ll".data ∧ 1 < pMeasure (chop w 1) then chop w 1 else w

/-- NLTK's irregular-forms pool; all keys are lowercase, so the guard
`word in pool` (on the original word) hits exactly when the original word is
already lowercase and in the pool, and then `pool[word.lower()] = pool[word]`. -/
def porterPool : List (String × String) :=
  [("sky", "sky"), ("skies", "sky"), ("dying", "die"), ("lying", "lie"), ("tying", "tie"),
   ("news", "news"), ("innings", "inning"), ("inning", "inning"), ("outings", "outing"),
   ("outing", "outing"), ("cannings", "canning"), ("canning", "canning"), ("howe", "howe"),
   ("proceed", "proceed"), ("exceed", "exceed"), ("succeed", "succeed")]

/-- Model of the external `nltk.stem.PorterStemmer().stem` (default mode):
pool lookup, then words of length ≤ 2 are returned unchanged, otherwise the
lowercased word is run through steps 1a-5b. -/
def porterStem (word : String) : String :=
  match porterPool.lookup word with
  | some r => r
  | none =>
    if word.data.length ≤ 2 then word
    else ⟨step5b (step5a (step4 (step3 (step2 (step1c (step1b (step1a (lowerStr word.data))))))))⟩

/-! ### The normalizer `preprocess` (src/main.py lines 15-64) -/

/-- `Modelled from the spec:` the stopword set is an external input of the
core ("the stopword loader supplies a set of stopword strings; the core
treats this as an opaque, immutable set") and the file `Stopword-List.txt`
is not part of the repository source.  All theorems are therefore
parameterized over the stopword list; this sample list of ordinary English
stopwords instantiates that parameter in concrete witnesses. -/
def sampleStopwords : List String :=
  ["a", "is", "the", "of", "all", "and", "to", "can", "be", "as", "once", "for", "at",
   "am", "are", "has", "have", "had", "up", "his", "her", "in", "on", "no", "we", "do"]

/-- `re.match(email_regex, token)` is truthy. -/
def emailHit (tok : List Char) : Bool := (tryEmail tok).isSome

/-- `re.match(url_regex, token)` is truthy. -/
def urlHit (tok : List Char) : Bool := (tryUrl tok).isSome

/-- `clean_token` (src/main.py lines 38-42): preserve emails and URLs,
otherwise remove all non-alphanumeric characters. -/
def clean_token (tok : List Char) : List Char :=
  if emailHit tok || urlHit tok then tok else tok.filter isAlnum

/-- Body of the token loop of `preprocess` (src/main.py lines 51-62):
lowercase and strip digits unless the token matches the email or URL
pattern; keep it only if it contains a letter and is longer than 2
characters; stem it; drop it if the stemmed form is a stopword. -/
def processToken (stem : String → String) (stop_words : List String) (tok0 : List Char) :
    Option String :=
  let tok :=
    if ¬(emailHit tok0 || urlHit tok0) then (lowerStr tok0).filter (fun c => !isAsciiDigit c)
    else tok0
  if tok.any isAsciiAlpha ∧ 2 < tok.length then
    (let st := stem ⟨tok⟩
     if st ∈ stop_words then none else some st)
  else none

/-- `preprocess` (src/main.py lines 15-64), parameterized over the external
stemmer and stopword list. -/
def preprocess (stem : String → String) (stop_words : List String) (text : String) :
    List String :=
  ((findTokens text.data.length text.data).map clean_token).filterMap
    (processToken stem stop_words)

/-! ### Association-list helpers (Python `dict` semantics)

Python dicts preserve insertion order: updating an existing key keeps its
place, a new key is appended at the end.  `assocGet` is `d.get(k)`,
`upsert` is `d[k] = f(d.get(k))`. -/

def assocGet {α β : Type} [DecidableEq α] (m : List (α × β)) (k : α) : Option β :=
  (m.find? (fun p => p.1 = k)).map (fun p => p.2)

def upsert {α β : Type} [DecidableEq α] (m : List (α × β)) (k : α) (f : Option β → β) :
    List (α × β) :=
  match m with
  | [] => [(k, f none)]
  | (a, b) :: rest => if a = k then (a, f (some b)) :: rest else (a, b) :: upsert rest k f

/-! ### The index builder `build_indexes` (src/main.py lines 66-136)

Only the in-memory construction is embedded: the directory handling and the
load-instead-of-rebuild short-circuit (lines 78-88) and the final saves
(lines 132-134) are file I/O around it.  The document collection is a dict
`doc_id → text`, embedded as an association list whose keys are distinct. -/

/-- The inverted index: term → posting list (document ids). -/
abbrev InvIdx := List (String × List Nat)

/-- The positional index: term → (document id → position list). -/
abbrev PosIdx := List (String × List (Nat × List Nat))

/-- Per-document pass (src/main.py lines 98-106): enumerate the whitespace
slots of the document, keep the first normalized token of each slot (if
any), and append the slot's position to that token's list. -/
def docPositions (stem : String → String) (stop_words : List String) (tokens : List String) :
    List (String × List Nat) :=
  tokens.enum.foldl
    (fun pos p =>
      match (preprocess stem stop_words p.2).head? with
      | none => pos
      | some t => upsert pos t (fun o => (o.getD []) ++ [p.1]))
    []

/-- Folding one document's `positions` dict into the two indexes
(src/main.py lines 108-119). -/
def foldDoc (doc_id : Nat) (acc : PosIdx × List (String × Finset Nat))
    (dp : List (String × List Nat)) : PosIdx × List (String × Finset Nat) :=
  dp.foldl
    (fun acc p =>
      (upsert acc.1 p.1
        (fun m => upsert (m.getD []) doc_id (fun o => (o.getD []) ++ p.2)),
       upsert acc.2 p.1 (fun s => insert doc_id (s.getD ∅))))
    acc

/-- The whole document loop of `build_indexes`. -/
def buildLoop (stem : String → String) (stop_words : List String)
    (documents : List (Nat × String)) : PosIdx × List (String × Finset Nat) :=
  documents.foldl
    (fun acc doc =>
      foldDoc doc.1 acc (docPositions stem stop_words (pySplit doc.2)))
    ([], [])

/-- Python's `sorted` returns the ascending permutation of its input.  It is
embedded as `List.insertionSort`, which agrees with `sorted` on every list
(the two can differ only in the relative order of equal elements, and all
lists sorted by this program - dict keys, position lists, sets - are
duplicate-free, so the ascending permutation is unique). -/
def pySorted (l : List Nat) : List Nat := List.insertionSort (· ≤ ·) l

/-- `sorted(s)` for a Python set, i.e. the ascending list of the elements of
a `Finset`. -/
def finSort (s : Finset Nat) : List Nat :=
  Quot.liftOn s.val (fun l => l.insertionSort (· ≤ ·))
    (fun l₁ l₂ h => List.eq_of_perm_of_sorted
      ((List.perm_insertionSort _ l₁).trans (h.trans (List.perm_insertionSort _ l₂).symm))
      (List.sorted_insertionSort _ l₁) (List.sorted_insertionSort _ l₂))

/-- Lexicographic order by code point, the order Python's `sorted` uses on
strings.  (Lean's built-in `String` order agrees with it, but its comparison
functions do not reduce in the kernel, so the term order is spelled out on
the character lists.) -/
def lexLe : List Char → List Char → Bool
  | [], _ => true
  | _ :: _, [] => false
  | a :: as, b :: bs => if a < b then true else if b < a then false else lexLe as bs

def keyLe {β : Type} (p q : String × β) : Prop := lexLe p.1.data q.1.data = true

instance {β : Type} : DecidableRel (@keyLe β) :=
  fun p q => inferInstanceAs (Decidable (lexLe p.1.data q.1.data = true))

def keyLeNat {β : Type} (p q : Nat × β) : Prop := p.1 ≤ q.1

instance {β : Type} : DecidableRel (@keyLeNat β) :=
  fun p q => inferInstanceAs (Decidable (p.1 ≤ q.1))

/-- `build_indexes(documents)` (in-memory part): run the document loop, then
sort terms alphabetically with ascending posting lists (line 122) and sort
the positional index's terms, inner doc ids and position lists
(lines 125-130). -/
def build_indexes (stem : String → String) (stop_words : List String)
    (documents : List (Nat × String)) : InvIdx × PosIdx :=
  let acc := buildLoop stem stop_words documents
  let inverted := (List.insertionSort keyLe acc.2).map (fun p => (p.1, finSort p.2))
  let positional := (List.insertionSort keyLe acc.1).map
    (fun p => (p.1, (List.insertionSort keyLeNat p.2).map (fun q => (q.1, pySorted q.2))))
  (inverted, positional)

/-! ### The index codec (src/main.py lines 138-187)

The index files are modelled as their list of lines: the save functions
write one `'\n'`-terminated line per term and the load functions iterate
over lines, so the two views are interchangeable (no written field can
contain a newline).  Python is dynamically typed and distinguishes the `int`
document-id keys produced by `build_indexes` from the `str` keys produced by
`load_positional_index`; the key type `PyKey` mirrors that distinction
(`.inl n` is the Python int `n`, `.inr s` the Python string `s`). -/

abbrev PyKey := Nat ⊕ String

/-- Python `str(key)`. -/
def pyKeyStr : PyKey → String
  | .inl n => toString n
  | .inr s => s

/-- A positional index as a Python value: term → (doc-id key → positions). -/
abbrev PyPosIdx := List (String × List (PyKey × List Nat))

/-- The builder's positional index seen as a Python value (its doc-id keys
are ints). -/
def toPyPos (P : PosIdx) : PyPosIdx :=
  P.map (fun p => (p.1, p.2.map (fun q => ((Sum.inl q.1 : PyKey), q.2))))

/-- Python `str.strip()` (both ends, whitespace). -/
def pyStrip (l : List Char) : List Char :=
  ((l.dropWhile isWs).reverse.dropWhile isWs).reverse

/-- Python `s.split(sep)` for a one-character separator. -/
def splitSep (sep : Char) (l : List Char) : List (List Char) :=
  l.foldr
    (fun c acc =>
      match acc with
      | [] => [[c]]
      | cur :: done => if c = sep then [] :: cur :: done else (c :: cur) :: done)
    [[]]

/-- Decimal value of a digit run. -/
def digitsToNat (l : List Char) : Nat :=
  l.foldl (fun n c => n * 10 + (c.toNat - '0'.toNat)) 0

/-- Python `int(s)` on the decimal strings this codec itself writes;
`int()` raising on other strings is immaterial here because the round-trip
claim only evaluates the loaders on saved files. -/
def pyInt (l : List Char) : Nat := digitsToNat l

/-- `save_inverted_index` (src/main.py lines 138-143): one line
`term:id id ...` per term. -/
def save_inverted_index (index : InvIdx) : List (List Char) :=
  index.map (fun p =>
    p.1.data ++ ':' :: (String.intercalate " " (p.2.map toString)).data)

/-- `load_inverted_index` (src/main.py lines 153-163): skip lines that do
not split on `':'` into exactly two parts, parse the ids as ints. -/
def load_inverted_index (file : List (List Char)) : InvIdx :=
  file.foldl
    (fun index line =>
      let parts := splitSep ':' (pyStrip line)
      if parts.length = 2 then
        (let ids := (parts.drop 1).headD []
         upsert index ⟨parts.headD []⟩ (fun _ => (splitWsAux ids.length ids).map pyInt))
      else index)
    []

/-- `save_positional_index` (src/main.py lines 145-151): one line
`term: id [p,p,...] id [p,p,...]` per term (`str(doc_id)` of each key). -/
def save_positional_index (index : PyPosIdx) : List (List Char) :=
  index.map (fun p =>
    p.1.data ++ ':' ::
      (p.2.foldl
        (fun line q =>
          line ++ ' ' :: (pyKeyStr q.1).data ++ ' ' ::
            '[' :: (String.intercalate "," (q.2.map toString)).data ++ [']'])
        []))

/-- Consecutive pairs (`for i in range(0, len, 2)` with a guard skipping a
dangling element). -/
def pairUp {α : Type} : List α → List (α × α)
  | a :: b :: rest => (a, b) :: pairUp rest
  | _ => []

/-- One posting `doc_id [p1,p2,...]` as parsed by `load_positional_index`
(src/main.py lines 181-185): the doc id is kept as a string, the bracketed
part is stripped of its first and last character and split on commas;
entries whose position string is empty are skipped. -/
def loadPosting (postings : List (PyKey × List Nat)) (pr : List Char × List Char) :
    List (PyKey × List Nat) :=
  let positions_str := (pr.2.drop 1).dropLast
  if positions_str ≠ [] then
    upsert postings (Sum.inr ⟨pr.1⟩ : PyKey) (fun _ => (splitSep ',' positions_str).map pyInt)
  else postings

/-- `load_positional_index` (src/main.py lines 165-187): skip lines without
a colon; the term is the part before the first colon, the rest is split on
whitespace and consumed in pairs. -/
def load_positional_index (file : List (List Char)) : PyPosIdx :=
  file.foldl
    (fun positional_index line =>
      let parts := splitSep ':' (pyStrip line)
      if 2 ≤ parts.length then
        (let term : String := ⟨parts.headD []⟩
         let postings_str := String.intercalate ":" ((parts.drop 1).map (fun l => ⟨l⟩))
         let postings_list := splitWsAux (pyStrip postings_str.data).length
           (pyStrip postings_str.data)
         let postings := (pairUp postings_list).foldl loadPosting []
         upsert positional_index term (fun _ => postings))
      else positional_index)
    []

/-! ### The boolean evaluator `boolean_query` (src/main.py lines 189-245)

The evaluator folds over the whitespace tokens of the query with state
(result set, last AND/OR operator, NOT flag).  On a search term it runs
`preprocess(term)[0]`: when the term normalizes to nothing this subscript
raises `IndexError`, embedded as `Except.error ()`. -/

inductive BOp : Type
  | and : BOp
  | or : BOp
deriving DecidableEq

/-- State of the token loop: `(result_set, last_operation, not_flag)`. -/
abbrev BQState := Finset Nat × Option BOp × Bool

/-- `set(inverted_index.get(t, set()))`. -/
def termSet (inverted_index : InvIdx) (t : String) : Finset Nat :=
  ((assocGet inverted_index t).getD []).toFinset

/-- One iteration of the token loop of `boolean_query`
(src/main.py lines 214-242). -/
def bqStep (stem : String → String) (stop_words : List String) (inverted_index : InvIdx)
    (all_documents : Finset Nat) (st : BQState) (term : String) : Except Unit BQState :=
  if lowerStr term.data = "and".data then .ok (st.1, some .and, false)
  else if lowerStr term.data = "or".data then .ok (st.1, some .or, false)
  else if lowerStr term.data = "not".data then .ok (st.1, st.2.1, !st.2.2)
  else
    match preprocess stem stop_words term with
    | [] => .error ()
    | processed_term :: _ =>
      let term_results := termSet inverted_index processed_term
      let term_results :=
        if st.2.2 then all_documents \ term_results else term_results
      match st.2.1 with
      | some .and => .ok (st.1 ∩ term_results, st.2.1, st.2.2)
      | some .or => .ok (st.1 ∪ term_results, st.2.1, st.2.2)
      | none => .ok (term_results, st.2.1, st.2.2)

/-- `boolean_query(query, inverted_index, all_documents)`
(src/main.py lines 189-245). -/
def boolean_query (stem : String → String) (stop_words : List String) (query : String)
    (inverted_index : InvIdx) (all_documents : Finset Nat) : Except Unit (List Nat) := do
  let st ← (pySplit query).foldlM (bqStep stem stop_words inverted_index all_documents)
    ((∅ : Finset Nat), none, false)
  return finSort st.1

/-! ### The proximity evaluator `proximity_query` (src/main.py lines 247-284) -/

/-- `Modelled from the spec:` "extract and parse the trailing integer as the
proximity distance k".  The source computes `int(word_tokenize(query)[-1])`
with NLTK's external `word_tokenize`; on the accepted query shape
`"X Y / k"` the last NLTK token is the trailing digit run, and `int` raises
(here: `none`) when the query does not end in one. -/
def trailingInt (query : String) : Option Nat :=
  let tail := (pyStrip query.data).reverse.takeWhile isAsciiDigit
  if tail = [] then none else some (digitsToNat tail.reverse)

/-- The nested position loops of `proximity_query` (src/main.py
lines 272-281): for each posting `(doc_id, positions)` of the first term,
for each `position`, for each later query term, the document is added when
some position of that term in the same document is at raw distance exactly
`k + 1` (the `break` only exits the innermost loop, so the check is
existential over the later terms).  Inside this branch every query term is a
key of the index (the `all(...)` guard), so `.getD []` on the outer lookup
never takes its default. -/
def proxMatches (positional_index : PosIdx) (t0 : String) (rest : List String) (k : Nat) :
    Finset Nat :=
  ((assocGet positional_index t0).getD []).foldl
    (fun result_set dp =>
      dp.2.foldl
        (fun result_set (position : Nat) =>
          rest.foldl
            (fun result_set ti =>
              let next_term_positions :=
                (assocGet ((assocGet positional_index ti).getD []) dp.1).getD []
              if next_term_positions.any
                  (fun q => ((q : Int) - (position : Int)).natAbs = k + 1) then
                insert dp.1 result_set
              else result_set)
            result_set)
        result_set)
    ∅

/-- `proximity_query(query, positional_index)` (src/main.py lines 247-284).
`int(word_tokenize(query)[-1])` failing and the `query_terms[0]` subscript
on an empty normalized term list are the two `Except.error` outcomes. -/
def proximity_query (stem : String → String) (stop_words : List String) (query : String)
    (positional_index : PosIdx) : Except Unit (List Nat) := do
  let k ← match trailingInt query with
    | some k => Except.ok k
    | none => Except.error ()
  let query_terms := preprocess stem stop_words query
  if query_terms.all (fun t => (assocGet positional_index t).isSome) then
    match query_terms with
    | [] => Except.error ()
    | t0 :: rest => return finSort (proxMatches positional_index t0 rest k)
  else
    return finSort ∅

/-! ### Derived notions used to state the claims -/

instance : DecidableEq (Except Unit (List Nat)) := fun a b =>
  match a, b with
  | .ok x, .ok y => decidable_of_iff (x = y) (by simp)
  | .error x, .error y => isTrue (by cases x; cases y; rfl)
  | .ok _, .error _ => isFalse (by simp)
  | .error _, .ok _ => isFalse (by simp)

/-- Two-level lookup in a positional index: the position list of term `t` in
document `d`, when both are present. -/
def lookup2 (P : PosIdx) (t : String) (d : Nat) : Option (List Nat) :=
  (assocGet P t).bind (fun m => assocGet m d)

/-- The positions of term `t` in document `d` (empty when absent), as read
by `proximity_query`. -/
def posOf (P : PosIdx) (t : String) (d : Nat) : List Nat :=
  (assocGet ((assocGet P t).getD []) d).getD []

/-- Well-formedness of a positional index as a Python dict of dicts: no
duplicate term keys, no duplicate document keys.  Every dict-derived value
satisfies this. -/
def WFpos (P : PosIdx) : Prop :=
  (P.map Prod.fst).Nodup ∧ ∀ p ∈ P, (p.2.map Prod.fst).Nodup

/-- The claim's (spec-worded) proximity membership condition: some position
`p` of the first term such that EVERY later query term has a position at raw
distance exactly `k + 1` from `p`.  Stated from the spec for comparison with
the code; the code implements `specProxSome` below instead. -/
def specProxAll (P : PosIdx) (t0 : String) (rest : List String) (k d : Nat) : Prop :=
  ∃ p ∈ posOf P t0 d, ∀ t' ∈ rest, ∃ q ∈ posOf P t' d,
    ((q : Int) - (p : Int)).natAbs = k + 1

/-- The membership condition the code actually implements: some position
`p` of the first term and SOME later query term with a position at raw
distance exactly `k + 1` from `p`. -/
def specProxSome (P : PosIdx) (t0 : String) (rest : List String) (k d : Nat) : Prop :=
  ∃ p ∈ posOf P t0 d, ∃ t' ∈ rest, ∃ q ∈ posOf P t' d,
    ((q : Int) - (p : Int)).natAbs = k + 1

instance (P : PosIdx) (t0 : String) (rest : List String) (k d : Nat) :
    Decidable (specProxAll P t0 rest k d) := by
  unfold specProxAll; infer_instance

instance (P : PosIdx) (t0 : String) (rest : List String) (k d : Nat) :
    Decidable (specProxSome P t0 rest k d) := by
  unfold specProxSome; infer_instance

/-- The positions a single document contributes to term `t`: the zero-based
indices of the raw whitespace slots (computed before normalization, so
filtered-out slots still consume an index) whose first normalized token is
`t`. -/
def slotIdx (stem : String → String) (stop_words : List String) (toks : List String)
    (t : String) : List Nat :=
  toks.enum.filterMap
    (fun p => if (preprocess stem stop_words p.2).head? = some t then some p.1 else none)

def slotPos (stem : String → String) (stop_words : List String) (txt : String)
    (t : String) : List Nat :=
  slotIdx stem stop_words (pySplit txt) t

/-- The position list of term `t` in document `d` over a whole collection
(empty when `d` is not a document or never yields `t`). -/
def contrib (stem : String → String) (stop_words : List String)
    (documents : List (Nat × String)) (t : String) (d : Nat) : List Nat :=
  match documents.find? (fun p => p.1 = d) with
  | some p => slotPos stem stop_words p.2 t
  | none => []

/-- The documents of the collection containing term `t` (in collection
order). -/
def docsWith (stem : String → String) (stop_words : List String)
    (documents : List (Nat × String)) (t : String) : List Nat :=
  (documents.filter (fun p => slotPos stem stop_words p.2 t ≠ [])).map Prod.fst

/-- Appending positions to an optional existing position list (an absent
key with no new positions stays absent). -/
def extOpt (o : Option (List Nat)) (l : List Nat) : Option (List Nat) :=
  match o with
  | none => if l = [] then none else some l
  | some v => some (v ++ l)

/-! ## Helper lemmas -/

theorem mem_finSort {s : Finset Nat} {a : Nat} : a ∈ finSort s ↔ a ∈ s := by
  rcases s with ⟨m, hm⟩
  revert hm
  induction m using Quotient.inductionOn with
  | h l =>
    intro hm
    show a ∈ List.insertionSort (· ≤ ·) l ↔ _
    rw [(List.perm_insertionSort (· ≤ ·) l).mem_iff]
    simp [Finset.mem_mk]

theorem finSort_sorted_lt (s : Finset Nat) : (finSort s).Sorted (· < ·) := by
  rcases s with ⟨m, hm⟩
  revert hm
  induction m using Quotient.inductionOn with
  | h l =>
    intro hm
    show (List.insertionSort (· ≤ ·) l).Sorted (· < ·)
    have hnd : (List.insertionSort (· ≤ ·) l).Nodup :=
      (List.perm_insertionSort (· ≤ ·) l).nodup_iff.mpr (by simpa using hm)
    exact (List.sorted_insertionSort (· ≤ ·) l).lt_of_le hnd

theorem finSort_toFinset (s : Finset Nat) : (finSort s).toFinset = s := by
  ext a
  simp [mem_finSort]

theorem assocGet_nil {α β : Type} [DecidableEq α] (k : α) :
    assocGet ([] : List (α × β)) k = none := rfl

theorem assocGet_cons {α β : Type} [DecidableEq α] (a : α) (b : β) (m : List (α × β))
    (k : α) : assocGet ((a, b) :: m) k = if a = k then some b else assocGet m k := by
  by_cases h : a = k <;> simp [assocGet, List.find?_cons, h]

theorem assocGet_upsert_self {α β : Type} [DecidableEq α] (m : List (α × β)) (k : α)
    (f : Option β → β) : assocGet (upsert m k f) k = some (f (assocGet m k)) := by
  induction m with
  | nil => simp [upsert, assocGet_cons, assocGet_nil]
  | cons p rest ih =>
    rcases p with ⟨a, b⟩
    by_cases h : a = k
    · subst h
      simp [upsert, assocGet_cons]
    · simp [upsert, h, assocGet_cons, ih]

theorem assocGet_upsert_ne {α β : Type} [DecidableEq α] (m : List (α × β)) (k k' : α)
    (f : Option β → β) (h : k' ≠ k) : assocGet (upsert m k f) k' = assocGet m k' := by
  induction m with
  | nil => simp [upsert, assocGet_cons, assocGet_nil, Ne.symm h]
  | cons p rest ih =>
    rcases p with ⟨a, b⟩
    by_cases ha : a = k
    · subst ha
      simp [upsert, assocGet_cons, Ne.symm h]
    · simp [upsert, ha, assocGet_cons, ih]

theorem upsert_keys {α β : Type} [DecidableEq α] (m : List (α × β)) (k : α)
    (f : Option β → β) :
    (upsert m k f).map Prod.fst =
      if k ∈ m.map Prod.fst then m.map Prod.fst else m.map Prod.fst ++ [k] := by
  induction m with
  | nil => simp [upsert]
  | cons p rest ih =>
    rcases p with ⟨a, b⟩
    by_cases h : a = k
    · subst h; simp [upsert]
    · simp only [upsert, if_neg h, List.map_cons, ih]
      by_cases hk : k ∈ rest.map Prod.fst <;>
        simp [hk, List.mem_cons, Ne.symm h]

theorem upsert_keys_nodup {α β : Type} [DecidableEq α] (m : List (α × β)) (k : α)
    (f : Option β → β) (h : (m.map Prod.fst).Nodup) :
    ((upsert m k f).map Prod.fst).Nodup := by
  rw [upsert_keys]
  by_cases hk : k ∈ m.map Prod.fst
  · simpa [hk]
  · simp [hk, List.nodup_append, h]

theorem assocGet_eq_none_iff {α β : Type} [DecidableEq α] (m : List (α × β)) (k : α) :
    assocGet m k = none ↔ k ∉ m.map Prod.fst := by
  induction m with
  | nil => simp [assocGet_nil]
  | cons p rest ih =>
    rcases p with ⟨a, b⟩
    by_cases h : a = k
    · subst h
      simp [assocGet_cons]
    · simp [assocGet_cons, h, ih, Ne.symm h]

theorem assocGet_eq_some_iff {α β : Type} [DecidableEq α] {m : List (α × β)} {k : α}
    {v : β} (h : (m.map Prod.fst).Nodup) : assocGet m k = some v ↔ (k, v) ∈ m := by
  induction m with
  | nil => simp [assocGet_nil]
  | cons p rest ih =>
    rcases p with ⟨a, b⟩
    rcases List.nodup_cons.mp h with ⟨ha, hrest⟩
    by_cases hak : a = k
    · subst hak
      rw [assocGet_cons, if_pos rfl]
      simp only [List.mem_cons, Option.some_inj]
      constructor
      · rintro rfl
        exact Or.inl rfl
      · rintro (hab | hmem)
        · rw [Prod.ext_iff] at hab
          exact hab.2.symm
        · exact absurd (List.mem_map_of_mem Prod.fst hmem) ha
    · rw [assocGet_cons, if_neg hak, ih hrest]
      simp only [List.mem_cons]
      constructor
      · exact Or.inr
      · rintro (hab | hmem)
        · rw [Prod.ext_iff] at hab
          exact absurd hab.1.symm hak
        · exact hmem

theorem assocGet_perm {α β : Type} [DecidableEq α] {m m' : List (α × β)}
    (hp : m.Perm m') (h : (m.map Prod.fst).Nodup) (k : α) :
    assocGet m k = assocGet m' k := by
  have h' : (m'.map Prod.fst).Nodup := ((hp.map Prod.fst).nodup_iff).mp h
  cases hv : assocGet m k with
  | none =>
    rw [assocGet_eq_none_iff] at hv
    exact ((assocGet_eq_none_iff m' k).mpr
      (fun hk => hv ((hp.map Prod.fst).mem_iff.mpr hk))).symm
  | some v =>
    rw [assocGet_eq_some_iff h] at hv
    exact ((assocGet_eq_some_iff h').mpr (hp.mem_iff.mp hv)).symm

theorem assocGet_map_val {α β γ : Type} [DecidableEq α] (m : List (α × β)) (g : β → γ)
    (k : α) :
    assocGet (m.map (fun p => (p.1, g p.2))) k = (assocGet m k).map g := by
  induction m with
  | nil => simp [assocGet_nil]
  | cons p rest ih =>
    rcases p with ⟨a, b⟩
    by_cases h : a = k <;> simp [assocGet_cons, h, ih]

/-- Membership in a `foldl` that only ever inserts elements: `x` is in the
result iff it was in the accumulator or some step contributes it. -/
theorem mem_foldl_insert {β : Type} {step : Finset Nat → β → Finset Nat}
    {Q : β → Nat → Prop} (hstep : ∀ acc b x, x ∈ step acc b ↔ x ∈ acc ∨ Q b x)
    (l : List β) (acc : Finset Nat) (x : Nat) :
    x ∈ l.foldl step acc ↔ x ∈ acc ∨ ∃ b ∈ l, Q b x := by
  induction l generalizing acc with
  | nil => simp
  | cons b l ih =>
    rw [List.foldl_cons, ih, hstep]
    constructor
    · rintro ((hx | hq) | ⟨b', hb', hq⟩)
      · exact Or.inl hx
      · exact Or.inr ⟨b, List.mem_cons_self b l, hq⟩
      · exact Or.inr ⟨b', List.mem_cons_of_mem b hb', hq⟩
    · rintro (hx | ⟨b', hb', hq⟩)
      · exact Or.inl (Or.inl hx)
      · rcases List.mem_cons.mp hb' with rfl | hb'
        · exact Or.inl (Or.inr hq)
        · exact Or.inr ⟨b', hb', hq⟩

theorem takeWhile_ne_nil_head {p : Char → Bool} {l : List Char}
    (h : l.takeWhile p ≠ []) : ∃ c cs, l = c :: cs ∧ p c := by
  cases l with
  | nil => simp [List.takeWhile] at h
  | cons c cs =>
    by_cases hc : p c
    · exact ⟨c, cs, rfl, hc⟩
    · simp [List.takeWhile, hc] at h

/-! ## Claim C1: index codec round trip -/

/-- C1: the round-trip law fails on the code.  For the positional index
built from the one-document collection `{1: "able"}` (index
`{"abl": {1: [0]}}`), saving and re-loading does not return the original
index: `load_positional_index` keeps the document-id keys as the strings it
read from the file (src/main.py line 181 never converts them back to int),
so the loaded index is `{"abl": {"1": [0]}} ≠ {"abl": {1: [0]}}`.  The
stemmer is instantiated with the Porter model and the stopword parameter
with the sample list; the built index `{"abl": {1: [0]}}` does not depend on
that choice beyond "abl" not being a stopword. -/
theorem C1_positional_roundtrip_fails :
    (let P := toPyPos (build_indexes porterStem sampleStopwords [(1, "able")]).2
     load_positional_index (save_positional_index P) ≠ P) := by decide

/-! ## Claim C2: boolean evaluator on a fully-filtered term -/

/-- C2: contrary to the claim, a search term that normalizes to no token
makes `boolean_query` raise.  The query `"ab"` (filtered out by the
length > 2 rule before the stemmer or the stopword list are ever consulted,
so this holds for every stemmer and stopword set) reaches
`preprocess(term)[0]` (src/main.py line 226) with an empty list, an
`IndexError`, for every inverted index and universe. -/
theorem C2_boolean_query_raises_on_filtered_term (stem : String → String)
    (stop_words : List String) (inverted_index : InvIdx) (all_documents : Finset Nat) :
    boolean_query stem stop_words "ab" inverted_index all_documents = .error () := rfl

/-! ## Claim C5: proximity evaluator when normalization drops terms -/

/-- C5: contrary to the claim, when every query term is filtered out by
normalization `proximity_query` raises instead of returning an empty
result: with `query_terms == []` the guard `all(...)` is vacuously true and
`positional_index[query_terms[0]]` (src/main.py line 273) raises
`IndexError`.  The query `"ab cd / 0"` normalizes to `[]` for every stemmer
and stopword set (both words fail the length > 2 rule), and the error occurs
for every positional index. -/
theorem C5_proximity_query_raises_when_all_terms_filtered (stem : String → String)
    (stop_words : List String) (positional_index : PosIdx) :
    proximity_query stem stop_words "ab cd / 0" positional_index = .error () := rfl

/-! ## Claim C3, counterexample -/

/-- C3 counterexample: the word `"AB@cd.ef"` matches the email pattern and
passes the contains-a-letter and length > 2 filter, yet the normalizer does
not emit it unchanged: `preprocess` still applies the stemmer to preserved
tokens (src/main.py line 60), and the NLTK Porter stemmer lowercases its
argument, so the emitted token is `"ab@cd.ef"`. -/
theorem C3_preserved_token_not_emitted_unchanged :
    emailHit "AB@cd.ef".data = true ∧
    "AB@cd.ef".data.any isAsciiAlpha = true ∧
    2 < "AB@cd.ef".data.length ∧
    preprocess porterStem sampleStopwords "AB@cd.ef" = ["ab@cd.ef"] ∧
    preprocess porterStem sampleStopwords "AB@cd.ef" ≠ ["AB@cd.ef"] := by decide

/-! ## Claim C4, counterexample -/

/-- C4 counterexample: in the positional index
`{"aaa": {7: [0]}, "bbb": {7: [1]}, "ccc": {7: [5]}}` the proximity query
`"aaa bbb ccc / 0"` (all terms present, all Porter fixed points) returns
`[7]` although the third query term `"ccc"` has no position at distance
`0 + 1` from any position of `"aaa"` in document 7 - i.e. document 7 is
returned even though only some (not all) subsequent terms have a qualifying
pair, contradicting the claimed "for EVERY subsequent query term"
semantics. -/
theorem C4_returns_doc_without_all_subsequent_terms :
    proximity_query porterStem sampleStopwords "aaa bbb ccc / 0"
        [("aaa", [(7, [0])]), ("bbb", [(7, [1])]), ("ccc", [(7, [5])])] = .ok [7] ∧
    ¬ specProxAll [("aaa", [(7, [0])]), ("bbb", [(7, [1])]), ("ccc", [(7, [5])])]
        "aaa" ["bbb", "ccc"] 0 7 := by
  constructor
  · decide
  · decide

/-! ## Claim C7, counterexample -/

/-- C7 counterexample: the two literal query strings of the claim do not
evaluate to the same sequence.  With `inverted_index =
{"data": [1, 2], "gold": [2]}` and universe `{1, 2}` (terms `data` and
`gold` both present), `"NOT (A AND B)"` evaluates to `[]` - the parentheses
are stripped into the adjacent terms and the evaluator computes
`(¬data) ∩ gold = ∅` - while `"(NOT A) OR (NOT B)"` evaluates to `[1, 2]`:
`"(NOT"` is a search term that normalizes to `"not"` (an absent term, empty
posting set), so the fold computes `data ∪ gold`. -/
theorem C7_demorgan_literal_queries_differ :
    boolean_query porterStem sampleStopwords "NOT (data AND gold)"
        [("data", [1, 2]), ("gold", [2])] {1, 2} = .ok [] ∧
    boolean_query porterStem sampleStopwords "(NOT data) OR (NOT gold)"
        [("data", [1, 2]), ("gold", [2])] {1, 2} = .ok [1, 2] ∧
    (Except.ok ([] : List Nat) : Except Unit (List Nat)) ≠ .ok [1, 2] := by
  refine ⟨by decide, by decide, by decide⟩

/-! ## Claim C9: operator-only boolean queries -/

theorem bq_fold_ops (stem : String → String) (stop_words : List String)
    (inverted_index : InvIdx) (all_documents : Finset Nat) (toks : List String)
    (h : ∀ tok ∈ toks, lowerStr tok.data = "and".data ∨ lowerStr tok.data = "or".data ∨
      lowerStr tok.data = "not".data) :
    ∀ st : BQState, ∃ op flag,
      toks.foldlM (bqStep stem stop_words inverted_index all_documents) st =
        .ok (st.1, op, flag) := by
  induction toks with
  | nil => exact fun st => ⟨st.2.1, st.2.2, rfl⟩
  | cons tok toks ih =>
    intro st
    have htoks : ∀ t ∈ toks, lowerStr t.data = "and".data ∨ lowerStr t.data = "or".data ∨
        lowerStr t.data = "not".data := fun t ht => h t (List.mem_cons_of_mem tok ht)
    rcases h tok (List.mem_cons_self tok toks) with h1 | h1 | h1
    · have hstep : bqStep stem stop_words inverted_index all_documents st tok =
          .ok (st.1, some .and, false) := by
        unfold bqStep
        rw [if_pos h1]
      rw [List.foldlM_cons, hstep]
      exact ih htoks (st.1, some .and, false)
    · have hstep : bqStep stem stop_words inverted_index all_documents st tok =
          .ok (st.1, some .or, false) := by
        unfold bqStep
        rw [if_neg (by rw [h1]; decide), if_pos h1]
      rw [List.foldlM_cons, hstep]
      exact ih htoks (st.1, some .or, false)
    · have hstep : bqStep stem stop_words inverted_index all_documents st tok =
          .ok (st.1, st.2.1, !st.2.2) := by
        unfold bqStep
        rw [if_neg (by rw [h1]; decide), if_neg (by rw [h1]; decide), if_pos h1]
      rw [List.foldlM_cons, hstep]
      exact ih htoks (st.1, st.2.1, !st.2.2)

/-- C9: a boolean query whose whitespace tokens are all operator words
(`AND`/`OR`/`NOT` in any letter case) - in particular the empty query and a
lone `NOT` - returns the empty list: no token ever reaches the search-term
branch, so the result set stays the initial empty set, with no complementing
against the universe. -/
theorem C9_operator_only_queries_return_empty (stem : String → String)
    (stop_words : List String) (inverted_index : InvIdx) (all_documents : Finset Nat)
    (query : String)
    (h : ∀ tok ∈ pySplit query, lowerStr tok.data = "and".data ∨
      lowerStr tok.data = "or".data ∨ lowerStr tok.data = "not".data) :
    boolean_query stem stop_words query inverted_index all_documents = .ok [] := by
  obtain ⟨op, flag, heq⟩ := bq_fold_ops stem stop_words inverted_index all_documents
    (pySplit query) h ((∅ : Finset Nat), none, false)
  unfold boolean_query
  rw [bind_pure_comp] at *
  simp [heq]
  rfl

/-- C9 witness: the lone-`NOT` query over a nonempty universe returns `[]`
(not the universe). -/
theorem C9_witness :
    (∀ tok ∈ pySplit "NOT", lowerStr tok.data = "and".data ∨
      lowerStr tok.data = "or".data ∨ lowerStr tok.data = "not".data) ∧
    boolean_query porterStem sampleStopwords "NOT" [] {1, 2} = .ok [] :=
  ⟨by decide, C9_operator_only_queries_return_empty porterStem sampleStopwords [] {1, 2}
    "NOT" (by decide)⟩

/-! ## Claim C3, amended theorem -/

theorem findTokens_nil (n : Nat) : findTokens n [] = [] := by
  cases n <;> rfl

theorem class1_not_ws {c : Char} (h : class1 c = true) : isWs c = false := by
  by_contra hws
  have hws' : isWs c = true := by
    revert hws
    cases isWs c <;> simp
  have : c = ' ' ∨ c = '\t' ∨ c = '\n' ∨ c = '\r' ∨ c = '\x0b' ∨ c = '\x0c' := by
    revert hws'
    unfold isWs
    simp [or_assoc]
  rcases this with rfl | rfl | rfl | rfl | rfl | rfl <;> revert h <;> decide

theorem tryEmail_ne_nil {l : List Char} (h : (tryEmail l).isSome) :
    l.takeWhile class1 ≠ [] := by
  intro hnil
  unfold tryEmail at h
  rw [hnil] at h
  simp at h

/-- A full anchored email match is returned as the single scan token. -/
theorem findTokens_email_full {l : List Char} (h : tryEmail l = some (l, []))
    {n : Nat} (hn : 1 ≤ n) : findTokens n l = [l] := by
  obtain ⟨c, cs, rfl, hc⟩ := takeWhile_ne_nil_head (tryEmail_ne_nil (by rw [h]; rfl))
  obtain ⟨m, rfl⟩ := Nat.exists_eq_add_of_le hn
  rw [Nat.add_comm]
  show findTokens (m + 1) (c :: cs) = [c :: cs]
  have hws : isWs c = false := class1_not_ws hc
  simp only [findTokens, hws, Bool.false_eq_true, if_false, h, findTokens_nil]

/-- A full anchored URL match is returned as the single scan token (the
email alternative fails on every URL-shaped string: its `[a-zA-Z0-9_.+-]+`
run stops at the `:` where an `@` would be required). -/
theorem findTokens_url_full {l : List Char} (h : tryUrl l = some (l, []))
    {n : Nat} (hn : 1 ≤ n) : findTokens n l = [l] := by
  obtain ⟨m, rfl⟩ := Nat.exists_eq_add_of_le hn
  rw [Nat.add_comm]
  unfold tryUrl at h
  split at h
  next r =>
    show findTokens (m + 1) _ = _
    simp only [findTokens, show isWs 'h' = false from rfl, Bool.false_eq_true, if_false,
      show tryEmail ('h' :: 't' :: 't' :: 'p' :: 's' :: ':' :: '/' :: '/' :: r) = none
        from rfl,
      show tryUrl ('h' :: 't' :: 't' :: 'p' :: 's' :: ':' :: '/' :: '/' :: r) =
        urlTail ['h', 't', 't', 'p', 's', ':', '/', '/'] r from rfl,
      h, findTokens_nil]
  next r =>
    show findTokens (m + 1) _ = _
    simp only [findTokens, show isWs 'h' = false from rfl, Bool.false_eq_true, if_false,
      show tryEmail ('h' :: 't' :: 't' :: 'p' :: ':' :: '/' :: '/' :: r) = none
        from rfl,
      show tryUrl ('h' :: 't' :: 't' :: 'p' :: ':' :: '/' :: '/' :: r) =
        urlTail ['h', 't', 't', 'p', ':', '/', '/'] r from rfl,
      h, findTokens_nil]
  next => exact absurd h (by simp)

/-- C3 as amended: a word fully matched by the email or URL pattern that
passes the contains-a-letter and length > 2 filter does skip lowercasing and
digit removal, but it is still passed through the stemmer and the stopword
filter: the normalizer emits `stem w` when that is not a stopword and
nothing otherwise - not the unchanged word. -/
theorem C3_amended_preserved_token_is_stemmed (stem : String → String)
    (stop_words : List String) (w : String)
    (hmatch : tryEmail w.data = some (w.data, []) ∨ tryUrl w.data = some (w.data, []))
    (halpha : w.data.any isAsciiAlpha = true) (hlen : 2 < w.data.length) :
    preprocess stem stop_words w = if stem w ∈ stop_words then [] else [stem w] := by
  have hn : 1 ≤ w.data.length := le_trans (by norm_num) hlen
  have htoks : findTokens w.data.length w.data = [w.data] := by
    rcases hmatch with h | h
    · exact findTokens_email_full h hn
    · exact findTokens_url_full h hn
  have hhit : (emailHit w.data || urlHit w.data) = true := by
    rcases hmatch with h | h
    · unfold emailHit
      rw [h]
      rfl
    · unfold urlHit
      rw [h]
      simp
  unfold preprocess
  rw [htoks]
  have hclean : clean_token w.data = w.data := by
    unfold clean_token
    rw [if_pos hhit]
  rw [List.map_cons, List.map_nil, hclean]
  have hproc : processToken stem stop_words w.data =
      if stem w ∈ stop_words then none else some (stem w) := by
    unfold processToken
    rw [hhit]
    simp only [not_true, if_false]
    rw [if_pos ⟨halpha, hlen⟩]
  rw [List.filterMap_cons, hproc]
  by_cases hst : stem w ∈ stop_words
  · rw [if_pos hst, if_pos hst, List.filterMap_nil]
  · rw [if_neg hst, if_neg hst, List.filterMap_nil]

/-- C3 amended witness: the email-shaped word `"AB@cd.ef"` is emitted as its
stemmed (lowercased) form `"ab@cd.ef"`. -/
theorem C3_amended_witness :
    (tryEmail "AB@cd.ef".data = some ("AB@cd.ef".data, []) ∨
      tryUrl "AB@cd.ef".data = some ("AB@cd.ef".data, [])) ∧
    "AB@cd.ef".data.any isAsciiAlpha = true ∧ 2 < "AB@cd.ef".data.length ∧
    preprocess porterStem sampleStopwords "AB@cd.ef" =
      (if porterStem "AB@cd.ef" ∈ sampleStopwords then [] else [porterStem "AB@cd.ef"]) :=
  ⟨Or.inl (by decide), by decide, by decide,
    C3_amended_preserved_token_is_stemmed porterStem sampleStopwords "AB@cd.ef"
      (Or.inl (by decide)) (by decide) (by decide)⟩

/-! ## Claim C7, amended theorem -/

theorem foldlM_ok_cons {f : BQState → String → Except Unit BQState} {st st' : BQState}
    {a : String} {l : List String} (h : f st a = .ok st') :
    List.foldlM f st (a :: l) = List.foldlM f st' l := by
  rw [List.foldlM_cons, h]
  rfl

/-- C7 as amended: the query language has no parentheses (a parenthesis is
stripped into the adjacent word), so De Morgan sanity holds in the grammar
the evaluator actually implements: for non-operator terms `A`, `B` that
normalize to something, the query `NOT A OR NOT B` evaluates to the sorted
complement, against the universe, of the result of `A AND B`. -/
theorem C7_amended_demorgan (stem : String → String) (stop_words : List String)
    (inverted_index : InvIdx) (all_documents : Finset Nat) (q1 q2 a b : String)
    (a' b' : String) (ta tb : List String)
    (hq1 : pySplit q1 = ["NOT", a, "OR", "NOT", b])
    (hq2 : pySplit q2 = [a, "AND", b])
    (ha1 : lowerStr a.data ≠ "and".data) (ha2 : lowerStr a.data ≠ "or".data)
    (ha3 : lowerStr a.data ≠ "not".data)
    (hb1 : lowerStr b.data ≠ "and".data) (hb2 : lowerStr b.data ≠ "or".data)
    (hb3 : lowerStr b.data ≠ "not".data)
    (hpa : preprocess stem stop_words a = a' :: ta)
    (hpb : preprocess stem stop_words b = b' :: tb) :
    ∃ r2, boolean_query stem stop_words q2 inverted_index all_documents = .ok r2 ∧
      boolean_query stem stop_words q1 inverted_index all_documents =
        .ok (finSort (all_documents \ r2.toFinset)) := by
  set A := termSet inverted_index a' with hA
  set B := termSet inverted_index b' with hB
  have sa2 : bqStep stem stop_words inverted_index all_documents
      ((∅ : Finset Nat), none, false) a = .ok (A, none, false) := by
    unfold bqStep
    rw [if_neg ha1, if_neg ha2, if_neg ha3, hpa]
    rfl
  have sb2 : bqStep stem stop_words inverted_index all_documents
      (A, some .and, false) b = .ok (A ∩ B, some .and, false) := by
    unfold bqStep
    rw [if_neg hb1, if_neg hb2, if_neg hb3, hpb]
    rfl
  have h2 : boolean_query stem stop_words q2 inverted_index all_documents =
      .ok (finSort (A ∩ B)) := by
    unfold boolean_query
    rw [hq2, foldlM_ok_cons sa2, foldlM_ok_cons (by rfl), foldlM_ok_cons sb2]
    rfl
  have sa1 : bqStep stem stop_words inverted_index all_documents
      ((∅ : Finset Nat), none, true) a = .ok (all_documents \ A, none, true) := by
    unfold bqStep
    rw [if_neg ha1, if_neg ha2, if_neg ha3, hpa]
    rfl
  have sb1 : bqStep stem stop_words inverted_index all_documents
      (all_documents \ A, some .or, true) b =
      .ok ((all_documents \ A) ∪ (all_documents \ B), some .or, true) := by
    unfold bqStep
    rw [if_neg hb1, if_neg hb2, if_neg hb3, hpb]
    rfl
  have n0 : bqStep stem stop_words inverted_index all_documents
      ((∅ : Finset Nat), none, false) "NOT" = .ok ((∅ : Finset Nat), none, true) := rfl
  have o1 : bqStep stem stop_words inverted_index all_documents
      (all_documents \ A, none, true) "OR" = .ok (all_documents \ A, some .or, false) := rfl
  have n1 : bqStep stem stop_words inverted_index all_documents
      (all_documents \ A, some .or, false) "NOT" =
      .ok (all_documents \ A, some .or, true) := rfl
  have h1 : boolean_query stem stop_words q1 inverted_index all_documents =
      .ok (finSort ((all_documents \ A) ∪ (all_documents \ B))) := by
    unfold boolean_query
    rw [hq1, foldlM_ok_cons n0, foldlM_ok_cons sa1, foldlM_ok_cons o1,
      foldlM_ok_cons n1, foldlM_ok_cons sb1]
    rfl
  refine ⟨finSort (A ∩ B), h2, ?_⟩
  rw [h1, finSort_toFinset]
  have : (all_documents \ A) ∪ (all_documents \ B) = all_documents \ (A ∩ B) := by
    ext d
    simp only [Finset.mem_union, Finset.mem_sdiff, Finset.mem_inter]
    tauto
  rw [this]

/-- C7 amended witness: `"NOT data OR NOT gold"` against universe `{1, 2}`
with index `{"data": [1, 2], "gold": [2]}` returns `[1]`, the sorted
complement of `"data AND gold"`'s result `[2]`. -/
theorem C7_amended_witness :
    pySplit "NOT data OR NOT gold" = ["NOT", "data", "OR", "NOT", "gold"] ∧
    pySplit "data AND gold" = ["data", "AND", "gold"] ∧
    (∃ r2, boolean_query porterStem sampleStopwords "data AND gold"
        [("data", [1, 2]), ("gold", [2])] {1, 2} = .ok r2 ∧
      boolean_query porterStem sampleStopwords "NOT data OR NOT gold"
        [("data", [1, 2]), ("gold", [2])] {1, 2} =
        .ok (finSort (({1, 2} : Finset Nat) \ r2.toFinset))) :=
  ⟨by decide, by decide,
    C7_amended_demorgan porterStem sampleStopwords [("data", [1, 2]), ("gold", [2])]
      {1, 2} "NOT data OR NOT gold" "data AND gold" "data" "gold" "data" "gold" [] []
      (by decide) (by decide) (by decide) (by decide) (by decide) (by decide)
      (by decide) (by decide) (by decide) (by decide)⟩

/-! ## Claim C4, amended theorem -/

theorem mem_assoc_vals {β : Type} {m : List (Nat × List β)} {d : Nat} {p : β}
    (hm : (m.map Prod.fst).Nodup) :
    (∃ dp ∈ m, dp.1 = d ∧ p ∈ dp.2) ↔ p ∈ (assocGet m d).getD [] := by
  constructor
  · rintro ⟨⟨d', ps⟩, hmem, rfl, hp⟩
    rw [(assocGet_eq_some_iff hm).mpr hmem]
    exact hp
  · intro hp
    cases hv : assocGet m d with
    | none => rw [hv] at hp; exact absurd hp (List.not_mem_nil p)
    | some ps =>
      rw [hv] at hp
      exact ⟨(d, ps), (assocGet_eq_some_iff hm).mp hv, rfl, hp⟩

/-- A value looked up in a well-formed positional index has duplicate-free
document keys. -/
theorem nodup_keys_of_assocGet {P : PosIdx} (t : String)
    (hwf : ∀ p ∈ P, (p.2.map Prod.fst).Nodup) :
    ((((assocGet P t).getD []) : List (Nat × List Nat)).map Prod.fst).Nodup := by
  cases hv : assocGet P t with
  | none => simp
  | some m =>
    unfold assocGet at hv
    obtain ⟨q, hq, hq2⟩ := Option.map_eq_some'.mp hv
    rw [Option.getD_some, ← hq2]
    exact hwf q (List.mem_of_find?_eq_some hq)

/-- Membership in the result set of the proximity loops: document `d` is
collected iff some position of the first term in `d` is at raw distance
`k + 1` from some position of SOME later query term in `d`. -/
theorem mem_proxMatches {P : PosIdx} {t0 : String} {rest : List String} {k : Nat}
    (hwf : ∀ p ∈ P, (p.2.map Prod.fst).Nodup) (d : Nat) :
    d ∈ proxMatches P t0 rest k ↔ specProxSome P t0 rest k d := by
  have hstep3 : ∀ (dd p : Nat) (acc : Finset Nat) (t' : String) (x : Nat),
      (x ∈ (if (((assocGet ((assocGet P t').getD []) dd).getD []).any
            (fun q => ((q : Int) - (p : Int)).natAbs = k + 1)) then insert dd acc
          else acc) ↔
        x ∈ acc ∨ ((((assocGet ((assocGet P t').getD []) dd).getD []).any
            (fun q => ((q : Int) - (p : Int)).natAbs = k + 1)) = true ∧ x = dd)) := by
    intro dd p acc t' x
    by_cases hc : (((assocGet ((assocGet P t').getD []) dd).getD []).any
        (fun q => ((q : Int) - (p : Int)).natAbs = k + 1)) = true
    · rw [if_pos hc]
      simp only [Finset.mem_insert, hc, true_and]
      tauto
    · rw [if_neg hc]
      simp only [eq_false_of_ne_true hc, Bool.false_eq_true, false_and, or_false]
  have hstep2 : ∀ (dp : Nat × List Nat) (acc : Finset Nat) (p x : Nat),
      (x ∈ rest.foldl
          (fun result_set ti =>
            if (((assocGet ((assocGet P ti).getD []) dp.1).getD []).any
                (fun q => ((q : Int) - (p : Int)).natAbs = k + 1)) then
              insert dp.1 result_set
            else result_set) acc ↔
        x ∈ acc ∨ ∃ t' ∈ rest, ((((assocGet ((assocGet P t').getD []) dp.1).getD []).any
            (fun q => ((q : Int) - (p : Int)).natAbs = k + 1)) = true ∧ x = dp.1)) :=
    fun dp acc p x =>
      mem_foldl_insert (fun acc t' x => hstep3 dp.1 p acc t' x) rest acc x
  have hstep1 : ∀ (dp : Nat × List Nat) (acc : Finset Nat) (x : Nat),
      (x ∈ dp.2.foldl
          (fun (result_set : Finset Nat) (position : Nat) =>
            rest.foldl
              (fun result_set ti =>
                if (((assocGet ((assocGet P ti).getD []) dp.1).getD []).any
                    (fun q => ((q : Int) - (position : Int)).natAbs = k + 1)) then
                  insert dp.1 result_set
                else result_set) result_set) acc ↔
        x ∈ acc ∨ ∃ p ∈ dp.2, ∃ t' ∈ rest,
          ((((assocGet ((assocGet P t').getD []) dp.1).getD []).any
            (fun q => ((q : Int) - (p : Int)).natAbs = k + 1)) = true ∧ x = dp.1)) :=
    fun dp acc x => mem_foldl_insert (fun acc p x => hstep2 dp acc p x) dp.2 acc x
  have houter : d ∈ proxMatches P t0 rest k ↔
      d ∈ (∅ : Finset Nat) ∨ ∃ dp ∈ (assocGet P t0).getD [], ∃ p ∈ dp.2, ∃ t' ∈ rest,
        ((((assocGet ((assocGet P t').getD []) dp.1).getD []).any
          (fun q => ((q : Int) - (p : Int)).natAbs = k + 1)) = true ∧ d = dp.1) := by
    unfold proxMatches
    exact mem_foldl_insert (fun acc dp x => hstep1 dp acc x) ((assocGet P t0).getD []) ∅ d
  rw [houter]
  simp only [Finset.not_mem_empty, false_or]
  have hnodup := nodup_keys_of_assocGet t0 hwf
  constructor
  · rintro ⟨dp, hdp, p, hp, t', ht', hany, rfl⟩
    obtain ⟨q, hq, hcond⟩ := List.any_eq_true.mp hany
    refine ⟨p, ?_, t', ht', q, hq, of_decide_eq_true hcond⟩
    exact (mem_assoc_vals hnodup).mp ⟨dp, hdp, rfl, hp⟩
  · rintro ⟨p, hp, t', ht', q, hq, hcond⟩
    obtain ⟨dp, hdp, hd1, hp2⟩ := (mem_assoc_vals hnodup).mpr hp
    subst hd1
    exact ⟨dp, hdp, p, hp2, t', ht',
      List.any_eq_true.mpr ⟨q, hq, decide_eq_true hcond⟩, rfl⟩

/-- C4 as amended: for a proximity query whose normalized terms are all
present in the positional index, a document id is in the result exactly when
there is a position `p` of the first term in that document and SOME (at
least one) subsequent query term with a position `q` in the same document
satisfying `abs(q - p) == k + 1`; the subsequent terms are checked
independently against the first term's positions and one qualifying pair
suffices (the `break` only exits the innermost loop). -/
theorem C4_amended_proximity_membership (stem : String → String)
    (stop_words : List String) (query : String) (P : PosIdx) (k : Nat) (t0 : String)
    (rest : List String)
    (hk : trailingInt query = some k)
    (hterms : preprocess stem stop_words query = t0 :: rest)
    (hall : ∀ t ∈ t0 :: rest, (assocGet P t).isSome = true)
    (hwf : ∀ p ∈ P, (p.2.map Prod.fst).Nodup) :
    ∃ L, proximity_query stem stop_words query P = .ok L ∧
      ∀ d, (d ∈ L ↔ specProxSome P t0 rest k d) := by
  refine ⟨finSort (proxMatches P t0 rest k), ?_, ?_⟩
  · unfold proximity_query
    rw [hk]
    show (do
      let query_terms := preprocess stem stop_words query
      if query_terms.all (fun t => (assocGet P t).isSome) then
        match query_terms with
        | [] => Except.error ()
        | t0 :: rest => return finSort (proxMatches P t0 rest k)
      else
        return finSort ∅ : Except Unit (List Nat)) = _
    rw [hterms]
    rw [if_pos (List.all_eq_true.mpr hall)]
    rfl
  · intro d
    rw [mem_finSort]
    exact mem_proxMatches hwf d

/-- C4 amended witness: the instance of the counterexample, now matching
the amended (existential) semantics: document 7 is returned because term
`"bbb"` (though not `"ccc"`) has a qualifying pair. -/
theorem C4_amended_witness :
    trailingInt "aaa bbb ccc / 0" = some 0 ∧
    preprocess porterStem sampleStopwords "aaa bbb ccc / 0" = ["aaa", "bbb", "ccc"] ∧
    (∃ L, proximity_query porterStem sampleStopwords "aaa bbb ccc / 0"
        [("aaa", [(7, [0])]), ("bbb", [(7, [1])]), ("ccc", [(7, [5])])] = .ok L ∧
      ∀ d, (d ∈ L ↔ specProxSome
        [("aaa", [(7, [0])]), ("bbb", [(7, [1])]), ("ccc", [(7, [5])])]
        "aaa" ["bbb", "ccc"] 0 d)) :=
  ⟨by decide, by decide,
    C4_amended_proximity_membership porterStem sampleStopwords "aaa bbb ccc / 0"
      [("aaa", [(7, [0])]), ("bbb", [(7, [1])]), ("ccc", [(7, [5])])] 0 "aaa"
      ["bbb", "ccc"] (by decide) (by decide) (by decide) (by decide)⟩

/-! ## The index builder: characterization of `docPositions` -/

theorem extOpt_shift (o : Option (List Nat)) (i : Nat) (l : List Nat) :
    extOpt (some ((o.getD []) ++ [i])) l = extOpt o (i :: l) := by
  cases o <;> simp [extOpt]

theorem docPositions_fold (stem : String → String) (stop_words : List String)
    (L : List (Nat × String)) :
    ∀ (acc : List (String × List Nat)) (t : String),
      assocGet (L.foldl
        (fun pos p =>
          match (preprocess stem stop_words p.2).head? with
          | none => pos
          | some t => upsert pos t (fun o => (o.getD []) ++ [p.1])) acc) t =
      extOpt (assocGet acc t)
        (L.filterMap
          (fun p => if (preprocess stem stop_words p.2).head? = some t then some p.1
            else none)) := by
  induction L with
  | nil =>
    intro acc t
    cases h : assocGet acc t <;> simp [extOpt, h]
  | cons p L ih =>
    intro acc t
    rw [List.foldl_cons, List.filterMap_cons]
    cases hh : (preprocess stem stop_words p.2).head? with
    | none =>
      rw [if_neg (fun h => Option.noConfusion h)]
      exact ih acc t
    | some t' =>
      by_cases htt : t' = t
      · subst htt
        rw [if_pos rfl]
        rw [ih]
        rw [assocGet_upsert_self]
        exact extOpt_shift (assocGet acc t') p.1 _
      · rw [if_neg (fun h => htt (Option.some_inj.mp h))]
        rw [ih]
        rw [assocGet_upsert_ne _ _ _ _ (fun h => htt h.symm)]

/-- The per-document positions dict maps `t` to the (raw, pre-normalization)
slot indices whose first normalized token is `t`, and holds a key only when
that list is nonempty. -/
theorem assocGet_docPositions (stem : String → String) (stop_words : List String)
    (toks : List String) (t : String) :
    assocGet (docPositions stem stop_words toks) t =
      if slotIdx stem stop_words toks t = [] then none
      else some (slotIdx stem stop_words toks t) := by
  have h := docPositions_fold stem stop_words toks.enum [] t
  unfold docPositions slotIdx
  rw [h]
  rfl

theorem docPositions_keys_nodup (stem : String → String) (stop_words : List String)
    (toks : List String) :
    ((docPositions stem stop_words toks).map Prod.fst).Nodup := by
  unfold docPositions
  generalize toks.enum = L
  have : ∀ (acc : List (String × List Nat)), (acc.map Prod.fst).Nodup →
      ((L.foldl
        (fun pos p =>
          match (preprocess stem stop_words p.2).head? with
          | none => pos
          | some t => upsert pos t (fun o => (o.getD []) ++ [p.1])) acc).map
        Prod.fst).Nodup := by
    induction L with
    | nil => exact fun acc h => h
    | cons p L ih =>
      intro acc h
      rw [List.foldl_cons]
      cases hh : (preprocess stem stop_words p.2).head? with
      | none => exact ih acc h
      | some t' => exact ih _ (upsert_keys_nodup acc t' _ h)
  exact this [] (by simp)

/-! ## Sortedness of the slot-index lists -/

theorem filterMap_fst_sublist {α : Type} (f : (Nat × α) → Option Nat)
    (hf : ∀ p i, f p = some i → i = p.1) :
    ∀ l : List (Nat × α), (l.filterMap f).Sublist (l.map Prod.fst) := by
  intro l
  induction l with
  | nil => simp
  | cons p l ih =>
    rw [List.filterMap_cons, List.map_cons]
    cases hfp : f p with
    | none => exact ih.cons p.1
    | some i =>
      rw [hf p i hfp]
      exact ih.cons₂ p.1

theorem slotIdx_sorted (stem : String → String) (stop_words : List String)
    (toks : List String) (t : String) :
    (slotIdx stem stop_words toks t).Sorted (· < ·) := by
  have hsub : (slotIdx stem stop_words toks t).Sublist (toks.enum.map Prod.fst) := by
    unfold slotIdx
    refine filterMap_fst_sublist _ (fun p i h => ?_) toks.enum
    by_cases hc : (preprocess stem stop_words p.2).head? = some t
    · rw [if_pos hc] at h
      exact (Option.some_inj.mp h).symm
    · rw [if_neg hc] at h
      exact absurd h (by simp)
  rw [List.enum_map_fst] at hsub
  exact List.Pairwise.sublist hsub (List.sorted_lt_range toks.length)

theorem pySorted_eq_self_of_sorted {l : List Nat} (h : l.Sorted (· < ·)) :
    pySorted l = l :=
  List.Sorted.insertionSort_eq (h.imp le_of_lt)

theorem mem_slotIdx {stem : String → String} {stop_words : List String}
    {toks : List String} {t : String} {i : Nat} :
    i ∈ slotIdx stem stop_words toks t ↔
      ∃ tok, (i, tok) ∈ toks.enum ∧ (preprocess stem stop_words tok).head? = some t := by
  unfold slotIdx
  rw [List.mem_filterMap]
  constructor
  · rintro ⟨⟨j, tok⟩, hmem, hf⟩
    by_cases hc : (preprocess stem stop_words tok).head? = some t
    · rw [if_pos hc] at hf
      cases hf
      exact ⟨tok, hmem, hc⟩
    · rw [if_neg hc] at hf
      exact absurd hf (by simp)
  · rintro ⟨tok, hmem, hc⟩
    exact ⟨(i, tok), hmem, by rw [if_pos hc]⟩

/-! ## The index builder: characterization of `foldDoc` -/

theorem lookup2_eq_getD (acc : PosIdx) (t : String) (d : Nat) :
    lookup2 acc t d = assocGet ((assocGet acc t).getD []) d := by
  unfold lookup2
  cases assocGet acc t <;> simp [assocGet_nil]

theorem lookup2_upsert_doc (acc : PosIdx) (t0 : String) (ps0 : List Nat) (doc_id : Nat)
    (t : String) (d : Nat) :
    lookup2 (upsert acc t0
        (fun m => upsert (m.getD []) doc_id (fun o => (o.getD []) ++ ps0))) t d =
      if t = t0 ∧ d = doc_id then some ((lookup2 acc t d).getD [] ++ ps0)
      else lookup2 acc t d := by
  by_cases ht : t = t0
  · subst ht
    rw [lookup2_eq_getD, assocGet_upsert_self, Option.getD_some]
    by_cases hd : d = doc_id
    · subst hd
      rw [if_pos ⟨rfl, rfl⟩, assocGet_upsert_self, lookup2_eq_getD]
    · rw [if_neg (fun hc => hd hc.2), assocGet_upsert_ne _ _ _ _ hd, lookup2_eq_getD]
  · rw [if_neg (fun hc => ht hc.1), lookup2_eq_getD, lookup2_eq_getD,
      assocGet_upsert_ne _ _ _ _ ht]

theorem assocGet_upsert_inv (acc : List (String × Finset Nat)) (t0 : String)
    (doc_id : Nat) (t : String) :
    assocGet (upsert acc t0 (fun s => insert doc_id (s.getD ∅))) t =
      if t = t0 then some (insert doc_id ((assocGet acc t).getD ∅))
      else assocGet acc t := by
  by_cases ht : t = t0
  · subst ht
    rw [if_pos rfl, assocGet_upsert_self]
  · rw [if_neg ht, assocGet_upsert_ne _ _ _ _ ht]

theorem foldDoc_fst (doc_id : Nat) (dp : List (String × List Nat)) :
    ∀ acc : PosIdx × List (String × Finset Nat),
      (foldDoc doc_id acc dp).1 = dp.foldl
        (fun a p => upsert a p.1
          (fun m => upsert (m.getD []) doc_id (fun o => (o.getD []) ++ p.2))) acc.1 := by
  induction dp with
  | nil => exact fun acc => rfl
  | cons p dp ih =>
    intro acc
    rw [List.foldl_cons]
    exact ih _

theorem foldDoc_snd (doc_id : Nat) (dp : List (String × List Nat)) :
    ∀ acc : PosIdx × List (String × Finset Nat),
      (foldDoc doc_id acc dp).2 = dp.foldl
        (fun a p => upsert a p.1 (fun s => insert doc_id (s.getD ∅))) acc.2 := by
  induction dp with
  | nil => exact fun acc => rfl
  | cons p dp ih =>
    intro acc
    rw [List.foldl_cons]
    exact ih _

theorem foldDoc_pos (doc_id : Nat) (dp : List (String × List Nat))
    (hdp : (dp.map Prod.fst).Nodup) :
    ∀ (a : PosIdx) (t : String) (d : Nat),
      lookup2 (dp.foldl
        (fun a p => upsert a p.1
          (fun m => upsert (m.getD []) doc_id (fun o => (o.getD []) ++ p.2))) a) t d =
      if (assocGet dp t).isSome ∧ d = doc_id then
        some ((lookup2 a t d).getD [] ++ (assocGet dp t).getD [])
      else lookup2 a t d := by
  induction dp with
  | nil =>
    intro a t d
    rw [assocGet_nil]
    simp
  | cons q dp ih =>
    rcases q with ⟨t0, ps0⟩
    rcases List.nodup_cons.mp hdp with ⟨ht0, hdp'⟩
    intro a t d
    rw [List.foldl_cons]
    dsimp only
    rw [ih hdp', assocGet_cons]
    by_cases ht : t0 = t
    · subst ht
      rw [if_pos rfl]
      have hnone : assocGet dp t0 = none :=
        (assocGet_eq_none_iff dp t0).mpr ht0
      rw [hnone]
      simp only [Option.isSome_none, Bool.false_eq_true, false_and, if_false,
        Option.isSome_some, true_and, Option.getD_some]
      rw [lookup2_upsert_doc]
      by_cases hd : d = doc_id
      · rw [if_pos ⟨rfl, hd⟩, if_pos hd]
      · rw [if_neg (fun hc => hd hc.2), if_neg hd]
    · rw [if_neg ht]
      have ha' : ∀ d', lookup2 (upsert a t0
          (fun m => upsert (m.getD []) doc_id (fun o => (o.getD []) ++ ps0))) t d' =
          lookup2 a t d' := by
        intro d'
        rw [lookup2_upsert_doc, if_neg (fun hc => ht hc.1.symm)]
      rw [ha' d]

theorem foldDoc_inv (doc_id : Nat) (dp : List (String × List Nat))
    (hdp : (dp.map Prod.fst).Nodup) :
    ∀ (a : List (String × Finset Nat)) (t : String),
      assocGet (dp.foldl
        (fun a p => upsert a p.1 (fun s => insert doc_id (s.getD ∅))) a) t =
      if (assocGet dp t).isSome then some (insert doc_id ((assocGet a t).getD ∅))
      else assocGet a t := by
  induction dp with
  | nil =>
    intro a t
    rw [assocGet_nil]
    simp
  | cons q dp ih =>
    rcases q with ⟨t0, ps0⟩
    rcases List.nodup_cons.mp hdp with ⟨ht0, hdp'⟩
    intro a t
    rw [List.foldl_cons]
    dsimp only
    rw [ih hdp', assocGet_cons]
    by_cases ht : t0 = t
    · subst ht
      rw [if_pos rfl]
      have hnone : assocGet dp t0 = none :=
        (assocGet_eq_none_iff dp t0).mpr ht0
      rw [hnone]
      simp only [Option.isSome_none, Bool.false_eq_true, if_false, Option.isSome_some,
        if_true]
      rw [assocGet_upsert_inv, if_pos rfl]
    · rw [if_neg ht]
      have ha' : assocGet (upsert a t0 (fun s => insert doc_id (s.getD ∅))) t =
          assocGet a t := by
        rw [assocGet_upsert_inv, if_neg (fun hc : t = t0 => ht hc.symm)]
      rw [ha']

/-! ## The index builder: characterization of the document loop -/

theorem contrib_nil (stem : String → String) (stop_words : List String) (t : String)
    (d : Nat) : contrib stem stop_words [] t d = [] := rfl

theorem contrib_cons (stem : String → String) (stop_words : List String) (d0 : Nat)
    (txt : String) (docs : List (Nat × String)) (t : String) (d : Nat) :
    contrib stem stop_words ((d0, txt) :: docs) t d =
      if d0 = d then slotPos stem stop_words txt t
      else contrib stem stop_words docs t d := by
  unfold contrib
  by_cases h : d0 = d
  · rw [List.find?_cons_of_pos _ (by simpa using h), if_pos h]
  · rw [List.find?_cons_of_neg _ (by simpa using h), if_neg h]

theorem contrib_eq_nil_of_not_mem (stem : String → String) (stop_words : List String)
    (docs : List (Nat × String)) (t : String) (d : Nat)
    (h : d ∉ docs.map Prod.fst) : contrib stem stop_words docs t d = [] := by
  have hfind : docs.find? (fun p => p.1 = d) = none := by
    rw [List.find?_eq_none]
    intro p hp
    simp only [decide_eq_true_eq]
    exact fun hpd => h (hpd ▸ List.mem_map_of_mem Prod.fst hp)
  unfold contrib
  rw [hfind]

theorem docsWith_nil (stem : String → String) (stop_words : List String) (t : String) :
    docsWith stem stop_words [] t = [] := rfl

theorem docsWith_cons (stem : String → String) (stop_words : List String) (d0 : Nat)
    (txt : String) (docs : List (Nat × String)) (t : String) :
    docsWith stem stop_words ((d0, txt) :: docs) t =
      if slotPos stem stop_words txt t = [] then docsWith stem stop_words docs t
      else d0 :: docsWith stem stop_words docs t := by
  unfold docsWith
  by_cases h : slotPos stem stop_words txt t = []
  · rw [List.filter_cons_of_neg (by simpa using h), if_pos h]
  · rw [List.filter_cons_of_pos (by simpa using h), if_neg h, List.map_cons]

/-- One characterization of the whole document loop of `build_indexes`
(before the final sorting): the position list of `(t, d)` is exactly what
document `d` contributes, and the posting set of `t` is exactly the set of
contributing documents. -/
theorem buildLoop_char (stem : String → String) (stop_words : List String) :
    ∀ (docs : List (Nat × String)), (docs.map Prod.fst).Nodup →
    ∀ acc : PosIdx × List (String × Finset Nat),
      (∀ t d, lookup2 (docs.foldl
          (fun acc doc => foldDoc doc.1 acc
            (docPositions stem stop_words (pySplit doc.2))) acc).1 t d =
        if contrib stem stop_words docs t d = [] then lookup2 acc.1 t d
        else some ((lookup2 acc.1 t d).getD [] ++ contrib stem stop_words docs t d)) ∧
      (∀ t, assocGet (docs.foldl
          (fun acc doc => foldDoc doc.1 acc
            (docPositions stem stop_words (pySplit doc.2))) acc).2 t =
        if docsWith stem stop_words docs t = [] then assocGet acc.2 t
        else some ((assocGet acc.2 t).getD ∅ ∪
          (docsWith stem stop_words docs t).toFinset)) := by
  intro docs
  induction docs with
  | nil =>
    intro _ acc
    constructor
    · intro t d
      rw [contrib_nil, if_pos rfl]
      rfl
    · intro t
      rw [docsWith_nil, if_pos rfl]
      rfl
  | cons doc docs ih =>
    rcases doc with ⟨d0, txt⟩
    intro hnd acc
    rw [List.map_cons] at hnd
    rcases List.nodup_cons.mp hnd with ⟨hd0, hnd'⟩
    have hdpn := docPositions_keys_nodup stem stop_words (pySplit txt)
    have hdp : ∀ t, assocGet (docPositions stem stop_words (pySplit txt)) t =
        if slotPos stem stop_words txt t = [] then none
        else some (slotPos stem stop_words txt t) :=
      fun t => assocGet_docPositions stem stop_words (pySplit txt) t
    set acc' := foldDoc d0 acc (docPositions stem stop_words (pySplit txt)) with hacc'
    have hpos' : ∀ t d, lookup2 acc'.1 t d =
        if slotPos stem stop_words txt t ≠ [] ∧ d = d0 then
          some ((lookup2 acc.1 t d).getD [] ++ slotPos stem stop_words txt t)
        else lookup2 acc.1 t d := by
      intro t d
      rw [hacc', foldDoc_fst, foldDoc_pos d0 _ hdpn]
      by_cases hsp : slotPos stem stop_words txt t = []
      · rw [hdp t, if_pos hsp]
        simp only [Option.isSome_none, Bool.false_eq_true, false_and, if_false, hsp]
        rw [if_neg (fun hc => hc.1 rfl)]
      · rw [hdp t, if_neg hsp]
        simp only [Option.isSome_some, true_and, Option.getD_some]
        by_cases hd : d = d0
        · rw [if_pos hd, if_pos ⟨hsp, hd⟩]
        · rw [if_neg hd, if_neg (fun hc => hd hc.2)]
    have hinv' : ∀ t, assocGet acc'.2 t =
        if slotPos stem stop_words txt t = [] then assocGet acc.2 t
        else some (insert d0 ((assocGet acc.2 t).getD ∅)) := by
      intro t
      rw [hacc', foldDoc_snd, foldDoc_inv d0 _ hdpn]
      by_cases hsp : slotPos stem stop_words txt t = []
      · rw [hdp t, if_pos hsp]
        simp only [Option.isSome_none, Bool.false_eq_true, if_false, hsp, if_true]
      · rw [hdp t, if_neg hsp]
        simp only [Option.isSome_some, if_true]
        rw [if_neg hsp]
    constructor
    · intro t d
      rw [List.foldl_cons]
      rw [(ih hnd' acc').1 t d, contrib_cons]
      by_cases hd0 : d0 = d
      · subst hd0
        have hc' : contrib stem stop_words docs t d0 = [] :=
          contrib_eq_nil_of_not_mem stem stop_words docs t d0 hd0
        rw [hc', if_pos rfl, if_pos rfl, hpos' t d0]
        by_cases hsp : slotPos stem stop_words txt t = []
        · rw [if_pos hsp, if_neg (fun hc => hc.1 hsp)]
        · rw [if_neg hsp, if_pos ⟨hsp, rfl⟩]
      · rw [if_neg hd0]
        have heq : lookup2 acc'.1 t d = lookup2 acc.1 t d := by
          rw [hpos' t d]
          exact if_neg (fun hc => hd0 hc.2.symm)
        rw [heq]
    · intro t
      rw [List.foldl_cons]
      rw [(ih hnd' acc').2 t, docsWith_cons, hinv' t]
      by_cases hsp : slotPos stem stop_words txt t = []
      · rw [if_pos hsp, if_pos hsp]
      · rw [if_neg hsp, if_neg hsp]
        by_cases hdw : docsWith stem stop_words docs t = []
        · rw [if_pos hdw, hdw]
          rw [if_neg (List.cons_ne_nil d0 [])]
          congr 1
          ext x
          simp [Finset.mem_insert, or_comm]
        · rw [if_neg hdw, if_neg (List.cons_ne_nil d0 _), Option.getD_some]
          congr 1
          ext x
          simp only [Finset.mem_union, Finset.mem_insert, List.mem_toFinset,
            List.mem_cons]
          tauto

/-! ## The index builder: duplicate-free keys throughout the build -/

theorem mem_upsert_vals {α β : Type} [DecidableEq α] {m : List (α × β)} {k : α}
    {f : Option β → β} {q : α × β} (hq : q ∈ upsert m k f) :
    q ∈ m ∨ q.2 = f (assocGet m k) := by
  induction m with
  | nil =>
    rcases List.mem_singleton.mp hq with rfl
    exact Or.inr rfl
  | cons p rest ih =>
    rcases p with ⟨a, b⟩
    by_cases ha : a = k
    · subst ha
      unfold upsert at hq
      rw [if_pos rfl] at hq
      rcases List.mem_cons.mp hq with rfl | hq'
      · right
        rw [assocGet_cons, if_pos rfl]
      · exact Or.inl (List.mem_cons_of_mem _ hq')
    · unfold upsert at hq
      rw [if_neg ha] at hq
      rcases List.mem_cons.mp hq with rfl | hq'
      · exact Or.inl (List.mem_cons_self _ _)
      · rcases ih hq' with h | h
        · exact Or.inl (List.mem_cons_of_mem _ h)
        · right
          rw [assocGet_cons, if_neg ha]
          exact h

theorem pos_fold_nodup (doc_id : Nat) (dp : List (String × List Nat)) :
    ∀ a : PosIdx, (a.map Prod.fst).Nodup → (∀ p ∈ a, (p.2.map Prod.fst).Nodup) →
      (((dp.foldl
        (fun a p => upsert a p.1
          (fun m => upsert (m.getD []) doc_id (fun o => (o.getD []) ++ p.2))) a).map
        Prod.fst).Nodup ∧
      ∀ p ∈ dp.foldl
        (fun a p => upsert a p.1
          (fun m => upsert (m.getD []) doc_id (fun o => (o.getD []) ++ p.2))) a,
        (p.2.map Prod.fst).Nodup) := by
  induction dp with
  | nil => exact fun a h1 h2 => ⟨h1, h2⟩
  | cons q dp ih =>
    intro a h1 h2
    rw [List.foldl_cons]
    refine ih _ (upsert_keys_nodup a q.1 _ h1) ?_
    intro p hp
    rcases mem_upsert_vals hp with h | h
    · exact h2 p h
    · rw [h]
      exact upsert_keys_nodup _ doc_id _ (nodup_keys_of_assocGet q.1 h2)

theorem inv_fold_nodup (doc_id : Nat) (dp : List (String × List Nat)) :
    ∀ a : List (String × Finset Nat), (a.map Prod.fst).Nodup →
      ((dp.foldl
        (fun a p => upsert a p.1 (fun s => insert doc_id (s.getD ∅))) a).map
        Prod.fst).Nodup := by
  induction dp with
  | nil => exact fun a h => h
  | cons q dp ih =>
    intro a h
    rw [List.foldl_cons]
    exact ih _ (upsert_keys_nodup a q.1 _ h)

theorem buildLoop_nodup (stem : String → String) (stop_words : List String)
    (docs : List (Nat × String)) :
    ∀ acc : PosIdx × List (String × Finset Nat),
      (acc.1.map Prod.fst).Nodup → (∀ p ∈ acc.1, (p.2.map Prod.fst).Nodup) →
      (acc.2.map Prod.fst).Nodup →
      (((docs.foldl
          (fun acc doc => foldDoc doc.1 acc
            (docPositions stem stop_words (pySplit doc.2))) acc).1.map
          Prod.fst).Nodup ∧
        (∀ p ∈ (docs.foldl
          (fun acc doc => foldDoc doc.1 acc
            (docPositions stem stop_words (pySplit doc.2))) acc).1,
          (p.2.map Prod.fst).Nodup) ∧
        ((docs.foldl
          (fun acc doc => foldDoc doc.1 acc
            (docPositions stem stop_words (pySplit doc.2))) acc).2.map
          Prod.fst).Nodup) := by
  induction docs with
  | nil => exact fun acc h1 h2 h3 => ⟨h1, h2, h3⟩
  | cons doc docs ih =>
    intro acc h1 h2 h3
    rw [List.foldl_cons]
    set dp := docPositions stem stop_words (pySplit doc.2) with hdp
    have hfst := foldDoc_fst doc.1 dp acc
    have hsnd := foldDoc_snd doc.1 dp acc
    obtain ⟨g1, g2⟩ := pos_fold_nodup doc.1 dp acc.1 h1 h2
    refine ih (foldDoc doc.1 acc dp) ?_ ?_ ?_
    · rw [hfst]
      exact g1
    · rw [hfst]
      exact g2
    · rw [hsnd]
      exact inv_fold_nodup doc.1 dp acc.2 h3

/-! ## The index builder: the final sorted indexes -/

theorem build_indexes_fst (stem : String → String) (stop_words : List String)
    (documents : List (Nat × String)) :
    (build_indexes stem stop_words documents).1 =
      (List.insertionSort keyLe (buildLoop stem stop_words documents).2).map
        (fun p => (p.1, finSort p.2)) := rfl

theorem build_indexes_snd (stem : String → String) (stop_words : List String)
    (documents : List (Nat × String)) :
    (build_indexes stem stop_words documents).2 =
      (List.insertionSort keyLe (buildLoop stem stop_words documents).1).map
        (fun p => (p.1, (List.insertionSort keyLeNat p.2).map
          (fun q => (q.1, pySorted q.2)))) := rfl

theorem keys_map_val {α β γ : Type} (m : List (α × β)) (g : β → γ) :
    ((m.map (fun p => (p.1, g p.2))).map Prod.fst) = m.map Prod.fst := by
  rw [List.map_map]
  rfl

theorem contrib_sorted (stem : String → String) (stop_words : List String)
    (docs : List (Nat × String)) (t : String) (d : Nat) :
    (contrib stem stop_words docs t d).Sorted (· < ·) := by
  unfold contrib
  cases docs.find? (fun p => p.1 = d) with
  | none => simp
  | some p => exact slotIdx_sorted stem stop_words (pySplit p.2) t

theorem find?_of_mem_keys_nodup {docs : List (Nat × String)}
    (hnd : (docs.map Prod.fst).Nodup) {d : Nat} {txt : String}
    (hmem : (d, txt) ∈ docs) : docs.find? (fun p => p.1 = d) = some (d, txt) := by
  induction docs with
  | nil => exact absurd hmem (List.not_mem_nil _)
  | cons q docs ih =>
    rw [List.map_cons] at hnd
    rcases List.nodup_cons.mp hnd with ⟨hq, hnd'⟩
    rcases List.mem_cons.mp hmem with rfl | hmem'
    · exact List.find?_cons_of_pos _ (by simp)
    · have hqd : q.1 ≠ d := by
        intro h
        exact hq (h ▸ List.mem_map_of_mem Prod.fst hmem')
      rw [List.find?_cons_of_neg _ (by simpa using hqd)]
      exact ih hnd' hmem'

theorem contrib_of_mem (stem : String → String) (stop_words : List String)
    {docs : List (Nat × String)} (hnd : (docs.map Prod.fst).Nodup) {d : Nat}
    {txt : String} (hmem : (d, txt) ∈ docs) (t : String) :
    contrib stem stop_words docs t d = slotPos stem stop_words txt t := by
  unfold contrib
  rw [find?_of_mem_keys_nodup hnd hmem]

/-- The posting lists of the built inverted index: term `t` maps to the
sorted set of documents containing `t`, and has an entry exactly when that
set is nonempty. -/
theorem build_inv_char (stem : String → String) (stop_words : List String)
    (docs : List (Nat × String)) (hnd : (docs.map Prod.fst).Nodup) (t : String) :
    assocGet (build_indexes stem stop_words docs).1 t =
      if docsWith stem stop_words docs t = [] then none
      else some (finSort (docsWith stem stop_words docs t).toFinset) := by
  obtain ⟨hn1, hn2, hn3⟩ := buildLoop_nodup stem stop_words docs ([], [])
    (by simp) (by simp) (by simp)
  have hlayer : assocGet (build_indexes stem stop_words docs).1 t =
      (assocGet (buildLoop stem stop_words docs).2 t).map finSort := by
    rw [build_indexes_fst, assocGet_map_val]
    have hperm := List.perm_insertionSort keyLe (buildLoop stem stop_words docs).2
    rw [assocGet_perm hperm (((hperm.map Prod.fst).nodup_iff).mpr hn3)]
  have hroot := (buildLoop_char stem stop_words docs hnd ([], [])).2 t
  rw [hlayer]
  rw [show (buildLoop stem stop_words docs).2 = (docs.foldl
      (fun acc doc => foldDoc doc.1 acc
        (docPositions stem stop_words (pySplit doc.2))) ([], [])).2 from rfl, hroot]
  by_cases hc : docsWith stem stop_words docs t = []
  · rw [if_pos hc, if_pos hc]
    rfl
  · rw [if_neg hc, if_neg hc, Option.map_some']
    rw [show (assocGet (([], []) : PosIdx × List (String × Finset Nat)).2 t).getD ∅ =
      (∅ : Finset Nat) from rfl]
    rw [Finset.empty_union]

/-- The position lists of the built positional index: `(t, d)` maps to the
slot positions contributed by document `d`, with an entry exactly when that
list is nonempty (the list is already ascending, so the final sort leaves it
unchanged). -/
theorem build_pos_char (stem : String → String) (stop_words : List String)
    (docs : List (Nat × String)) (hnd : (docs.map Prod.fst).Nodup) (t : String)
    (d : Nat) :
    lookup2 (build_indexes stem stop_words docs).2 t d =
      if contrib stem stop_words docs t d = [] then none
      else some (contrib stem stop_words docs t d) := by
  obtain ⟨hn1, hn2, hn3⟩ := buildLoop_nodup stem stop_words docs ([], [])
    (by simp) (by simp) (by simp)
  have hlayer : lookup2 (build_indexes stem stop_words docs).2 t d =
      (lookup2 (buildLoop stem stop_words docs).1 t d).map pySorted := by
    rw [build_indexes_snd]
    unfold lookup2
    rw [assocGet_map_val _ (fun m => (List.insertionSort keyLeNat m).map
      (fun q => (q.1, pySorted q.2))) t]
    have hperm := List.perm_insertionSort keyLe (buildLoop stem stop_words docs).1
    rw [assocGet_perm hperm (((hperm.map Prod.fst).nodup_iff).mpr hn1)]
    cases hm : assocGet (buildLoop stem stop_words docs).1 t with
    | none => rfl
    | some m =>
      rw [Option.map_some', Option.some_bind, Option.some_bind, assocGet_map_val]
      have hmnodup : (m.map Prod.fst).Nodup := by
        have hthis := nodup_keys_of_assocGet t hn2
        have hm' : assocGet (docs.foldl
            (fun acc doc => foldDoc doc.1 acc
              (docPositions stem stop_words (pySplit doc.2))) ([], [])).1 t =
            some m := hm
        rw [hm'] at hthis
        exact hthis
      have hperm2 := List.perm_insertionSort keyLeNat m
      rw [assocGet_perm hperm2 (((hperm2.map Prod.fst).nodup_iff).mpr hmnodup)]
  have hroot := (buildLoop_char stem stop_words docs hnd ([], [])).1 t d
  rw [hlayer]
  rw [show (buildLoop stem stop_words docs).1 = (docs.foldl
      (fun acc doc => foldDoc doc.1 acc
        (docPositions stem stop_words (pySplit doc.2))) ([], [])).1 from rfl, hroot]
  by_cases hc : contrib stem stop_words docs t d = []
  · rw [if_pos hc, if_pos hc]
    rfl
  · rw [if_neg hc, if_neg hc, Option.map_some']
    rw [show ((lookup2 (([], []) : PosIdx × List (String × Finset Nat)).1 t d).getD [] ++
      contrib stem stop_words docs t d) = contrib stem stop_words docs t d from
      List.nil_append _]
    rw [pySorted_eq_self_of_sorted (contrib_sorted stem stop_words docs t d)]

/-! ## Claim C8: positions are raw whitespace-slot indices -/

/-- C8: in the built positional index, the position list of term `t` in
document `d` is exactly `slotPos` of that document's text: the zero-based
indices of its raw whitespace slots (assigned by `enumerate` before
normalization, so a filtered-out slot still consumes its index and surviving
tokens are not compacted) whose first normalized token is `t`. -/
theorem C8_positions_are_raw_slot_indices (stem : String → String)
    (stop_words : List String) (docs : List (Nat × String))
    (hnd : (docs.map Prod.fst).Nodup) (d : Nat) (txt : String)
    (hmem : (d, txt) ∈ docs) (t : String) :
    lookup2 (build_indexes stem stop_words docs).2 t d =
      if slotPos stem stop_words txt t = [] then none
      else some (slotPos stem stop_words txt t) := by
  rw [build_pos_char stem stop_words docs hnd t d,
    contrib_of_mem stem stop_words hnd hmem t]

/-- C8 witness: in `{1: "the data mining xx is fun"}` the surviving tokens
keep raw-slot positions 1 (`data`), 2 (`mine`) and 5 (`fun`); here the
position list of `mine` in document 1 is `[2]`, past the filtered slot 0. -/
theorem C8_witness :
    ((([(1, "the data mining xx is fun")] : List (Nat × String)).map
      Prod.fst).Nodup) ∧
    ((1, "the data mining xx is fun") ∈
      ([(1, "the data mining xx is fun")] : List (Nat × String))) ∧
    slotPos porterStem sampleStopwords "the data mining xx is fun" "mine" = [2] ∧
    lookup2 (build_indexes porterStem sampleStopwords
        [(1, "the data mining xx is fun")]).2 "mine" 1 =
      (if slotPos porterStem sampleStopwords "the data mining xx is fun" "mine" = []
       then none
       else some (slotPos porterStem sampleStopwords "the data mining xx is fun"
         "mine")) :=
  ⟨by decide, by decide, by decide,
    C8_positions_are_raw_slot_indices porterStem sampleStopwords
      [(1, "the data mining xx is fun")] (by decide) 1 "the data mining xx is fun"
      (by decide) "mine"⟩

/-! ## Claim C6: inverted/positional consistency and sortedness -/

theorem mem_docsWith_iff (stem : String → String) (stop_words : List String)
    {docs : List (Nat × String)} (hnd : (docs.map Prod.fst).Nodup) (t : String)
    (d : Nat) :
    d ∈ docsWith stem stop_words docs t ↔ contrib stem stop_words docs t d ≠ [] := by
  constructor
  · intro hd
    obtain ⟨p, hpf, hp1⟩ := List.mem_map.mp hd
    obtain ⟨hpdocs, hpslot⟩ := List.mem_filter.mp hpf
    have hmem : (d, p.2) ∈ docs := by
      rw [← hp1]
      exact hpdocs
    rw [contrib_of_mem stem stop_words hnd hmem t]
    simpa using hpslot
  · intro hc
    cases hfind : docs.find? (fun p => p.1 = d) with
    | none =>
      exact absurd (by unfold contrib; rw [hfind]) hc
    | some p =>
      have hp1 : p.1 = d := by simpa using List.find?_some hfind
      have hpdocs : p ∈ docs := List.mem_of_find?_eq_some hfind
      have hcontrib : contrib stem stop_words docs t d = slotPos stem stop_words p.2 t := by
        unfold contrib
        rw [hfind]
      rw [hcontrib] at hc
      rw [← hp1]
      exact List.mem_map_of_mem Prod.fst (List.mem_filter.mpr ⟨hpdocs, by simpa using hc⟩)

/-- C6: for every collection (distinct document ids), the built index pair
is consistent - `d` is in the posting list of `t` iff the positional index
has a nonempty position list for `(t, d)` - and every posting list and every
position list is strictly ascending (no duplicates). -/
theorem C6_consistency_and_sortedness (stem : String → String)
    (stop_words : List String) (docs : List (Nat × String))
    (hnd : (docs.map Prod.fst).Nodup) :
    (∀ t d, (∃ l, assocGet (build_indexes stem stop_words docs).1 t = some l ∧ d ∈ l) ↔
      (∃ ps, lookup2 (build_indexes stem stop_words docs).2 t d = some ps ∧ ps ≠ [])) ∧
    (∀ p ∈ (build_indexes stem stop_words docs).1, p.2.Sorted (· < ·)) ∧
    (∀ p ∈ (build_indexes stem stop_words docs).2, ∀ q ∈ p.2,
      q.2.Sorted (· < ·)) := by
  refine ⟨?_, ?_, ?_⟩
  · intro t d
    rw [build_inv_char stem stop_words docs hnd t, build_pos_char stem stop_words docs hnd t d]
    have hlhs : (∃ l, (if docsWith stem stop_words docs t = [] then none
        else some (finSort (docsWith stem stop_words docs t).toFinset)) = some l ∧
        d ∈ l) ↔ d ∈ docsWith stem stop_words docs t := by
      by_cases hdw : docsWith stem stop_words docs t = []
      · rw [if_pos hdw, hdw]
        simp
      · rw [if_neg hdw]
        constructor
        · rintro ⟨l, hl, hdl⟩
          cases hl
          rw [mem_finSort, List.mem_toFinset] at hdl
          exact hdl
        · intro hd
          exact ⟨_, rfl, by rw [mem_finSort, List.mem_toFinset]; exact hd⟩
    have hrhs : (∃ ps, (if contrib stem stop_words docs t d = [] then none
        else some (contrib stem stop_words docs t d)) = some ps ∧ ps ≠ []) ↔
        contrib stem stop_words docs t d ≠ [] := by
      by_cases hc : contrib stem stop_words docs t d = []
      · rw [if_pos hc]
        simp [hc]
      · rw [if_neg hc]
        exact ⟨fun ⟨ps, hps, hne⟩ => by cases hps; exact hne,
          fun h => ⟨_, rfl, hc⟩⟩
    rw [hlhs, hrhs]
    exact mem_docsWith_iff stem stop_words hnd t d
  · intro p hp
    rw [build_indexes_fst] at hp
    obtain ⟨q, hq, heq⟩ := List.mem_map.mp hp
    rw [← heq]
    exact finSort_sorted_lt q.2
  · intro p hp q hq
    obtain ⟨hn1, hn2, hn3⟩ := buildLoop_nodup stem stop_words docs ([], [])
      (by simp) (by simp) (by simp)
    rw [build_indexes_snd] at hp
    obtain ⟨p0, hp0, heq⟩ := List.mem_map.mp hp
    rw [← heq] at hq
    obtain ⟨r, hr, heqr⟩ := List.mem_map.mp hq
    have hp0' : p0 ∈ (buildLoop stem stop_words docs).1 :=
      (List.perm_insertionSort keyLe _).mem_iff.mp hp0
    have hr' : r ∈ p0.2 := (List.perm_insertionSort keyLeNat _).mem_iff.mp hr
    have hget1 : assocGet (docs.foldl
        (fun acc doc => foldDoc doc.1 acc
          (docPositions stem stop_words (pySplit doc.2))) ([], [])).1 p0.1 =
        some p0.2 := (assocGet_eq_some_iff hn1).mpr hp0'
    have hget2 : assocGet p0.2 r.1 = some r.2 :=
      (assocGet_eq_some_iff (hn2 p0 hp0')).mpr hr'
    have hl2 : lookup2 (docs.foldl
        (fun acc doc => foldDoc doc.1 acc
          (docPositions stem stop_words (pySplit doc.2))) ([], [])).1 p0.1 r.1 =
        some r.2 := by
      unfold lookup2
      rw [hget1, Option.some_bind, hget2]
    rw [(buildLoop_char stem stop_words docs hnd ([], [])).1 p0.1 r.1] at hl2
    by_cases hc : contrib stem stop_words docs p0.1 r.1 = []
    · rw [if_pos hc] at hl2
      exact Option.noConfusion hl2
    · rw [if_neg hc] at hl2
      have hr2 : r.2 = contrib stem stop_words docs p0.1 r.1 := by
        have := Option.some_inj.mp hl2
        rw [← this]
        rfl
      rw [← heqr]
      show (pySorted r.2).Sorted (· < ·)
      rw [hr2, pySorted_eq_self_of_sorted (contrib_sorted stem stop_words docs p0.1 r.1)]
      exact contrib_sorted stem stop_words docs p0.1 r.1

/-- C6 witness at the two-document example collection. -/
theorem C6_witness :
    ((([(1, "data mining is fun"), (2, "mining data for gold")] :
      List (Nat × String)).map Prod.fst).Nodup) ∧
    ((∀ t d, (∃ l, assocGet (build_indexes porterStem sampleStopwords
        [(1, "data mining is fun"), (2, "mining data for gold")]).1 t = some l ∧
        d ∈ l) ↔
      (∃ ps, lookup2 (build_indexes porterStem sampleStopwords
        [(1, "data mining is fun"), (2, "mining data for gold")]).2 t d = some ps ∧
        ps ≠ [])) ∧
    (∀ p ∈ (build_indexes porterStem sampleStopwords
      [(1, "data mining is fun"), (2, "mining data for gold")]).1,
      p.2.Sorted (· < ·)) ∧
    (∀ p ∈ (build_indexes porterStem sampleStopwords
      [(1, "data mining is fun"), (2, "mining data for gold")]).2, ∀ q ∈ p.2,
      q.2.Sorted (· < ·))) :=
  ⟨by decide,
    C6_consistency_and_sortedness porterStem sampleStopwords
      [(1, "data mining is fun"), (2, "mining data for gold")] (by decide)⟩

/-! ## Claim C10: position lists of distinct terms are disjoint -/

/-- C10: within one document of a freshly built positional index, the
position lists of two distinct terms never share a position: each raw
whitespace slot records at most one term (the first normalized token of the
slot). -/
theorem C10_distinct_terms_disjoint_positions (stem : String → String)
    (stop_words : List String) (docs : List (Nat × String))
    (hnd : (docs.map Prod.fst).Nodup) (t t' : String) (d : Nat)
    (ps ps' : List Nat) (hne : t ≠ t')
    (h1 : lookup2 (build_indexes stem stop_words docs).2 t d = some ps)
    (h2 : lookup2 (build_indexes stem stop_words docs).2 t' d = some ps') :
    ∀ p ∈ ps, p ∉ ps' := by
  rw [build_pos_char stem stop_words docs hnd t d] at h1
  rw [build_pos_char stem stop_words docs hnd t' d] at h2
  by_cases hc1 : contrib stem stop_words docs t d = []
  · rw [if_pos hc1] at h1
    exact absurd h1 (by simp)
  by_cases hc2 : contrib stem stop_words docs t' d = []
  · rw [if_pos hc2] at h2
    exact absurd h2 (by simp)
  rw [if_neg hc1] at h1
  rw [if_neg hc2] at h2
  cases h1
  cases h2
  intro p hp hp'
  unfold contrib at hp hp'
  cases hfind : docs.find? (fun p => p.1 = d) with
  | none =>
    rw [hfind] at hp
    exact absurd hp (List.not_mem_nil p)
  | some pr =>
    rw [hfind] at hp hp'
    obtain ⟨tok, htok, hhead⟩ := mem_slotIdx.mp hp
    obtain ⟨tok', htok', hhead'⟩ := mem_slotIdx.mp hp'
    have htoks : tok = tok' := by
      have g1 := List.mk_mem_enum_iff_get?.mp htok
      have g2 := List.mk_mem_enum_iff_get?.mp htok'
      rw [g1] at g2
      exact Option.some_inj.mp g2
    rw [← htoks] at hhead'
    rw [hhead] at hhead'
    exact hne (Option.some_inj.mp hhead')

/-- C10 witness: `data` (positions `[1]`) and `mine` (positions `[2]`) in
document 1 share no position. -/
theorem C10_witness :
    ((([(1, "the data mining xx is fun")] : List (Nat × String)).map
      Prod.fst).Nodup) ∧
    ("data" ≠ "mine") ∧
    lookup2 (build_indexes porterStem sampleStopwords
      [(1, "the data mining xx is fun")]).2 "data" 1 = some [1] ∧
    lookup2 (build_indexes porterStem sampleStopwords
      [(1, "the data mining xx is fun")]).2 "mine" 1 = some [2] ∧
    (∀ p ∈ [1], p ∉ [2]) :=
  ⟨by decide, by decide, by decide, by decide,
    C10_distinct_terms_disjoint_positions porterStem sampleStopwords
      [(1, "the data mining xx is fun")] (by decide) "data" "mine" 1 [1] [2]
      (by decide) (by decide) (by decide)⟩

end BooleanIR
